import Mathlib

/-!
Shallow embedding of `colossalai/auto_parallel/solver/cost_graph.py` (class
`CostGraph`): the cost-graph construction and simplification engine.

Modelling conventions:
* a Python `Node` object is a natural-number identifier; the mutable
  `parents` / `children` attributes attached to node objects become total
  maps `Node → List Node` carried in the engine state (updating the map at
  one node models the in-place attribute mutation, including aliasing);
* Python `float` costs (with `math.inf` as the infeasible sentinel) become
  `WithTop ℤ` (exact arithmetic): `⊤` is `math.inf`, addition and `<` agree
  with the float semantics used by the source (no NaN arises: costs are
  non-negative);
* Python dicts become association lists (`dget`/`dset`/`dpop`/`dmem`),
  except the inner edge-cost matrices, which the source only ever creates,
  writes and reads pointwise, and which become functions
  `ℤ × ℤ → Option Cost` (`none` models a missing key / `KeyError`);
* fallible operations (list `index`/`remove`, out-of-range list indexing,
  dict `KeyError`) are modelled in the `Option` monad: `none` is an
  uncaught Python exception;
* Python list indexing `l[i]` with a possibly negative `i` is `pyGet`,
  element assignment is `pySet`, `list.remove` is `pyRemove`.
-/

abbrev Node := Nat

/-- Resharding costs: exact numbers extended with the infeasible value
`math.inf`. -/
abbrev Cost := WithTop ℤ

/-- One candidate strategy of a node.  `resharding_costs` is the strategy's
resharding-cost table keyed by predecessor node; each row is indexed by the
predecessor's own strategy index. -/
structure Strategy where
  resharding_costs : Node → List Cost

/-- The registry data of one node (`StrategiesVector` of the source): its
node, predecessor/successor lists, candidate strategies, and the result of
`check_merge()`. -/
structure StrategiesVector where
  node : Node
  predecessor_nodes : List Node
  successor_nodes : List Node
  strategies : List Strategy
  check_merge : Bool

/-! ### Python dictionaries as association lists -/

def dget {α β : Type} [DecidableEq α] : List (α × β) → α → Option β
  | [], _ => none
  | p :: rest, a => if p.1 = a then some p.2 else dget rest a

def dmem {α β : Type} [DecidableEq α] (l : List (α × β)) (a : α) : Bool :=
  (dget l a).isSome

/-- `d[a] = b` on a Python dict: overwrite in place if the key is present,
append otherwise. -/
def dset {α β : Type} [DecidableEq α] (l : List (α × β)) (a : α) (b : β) :
    List (α × β) :=
  if dmem l a then l.map (fun p => if p.1 = a then (a, b) else p) else l ++ [(a, b)]

/-- `d.pop(a)` with no default: fails (`KeyError`) when the key is absent. -/
def dpop {α β : Type} [DecidableEq α] (l : List (α × β)) (a : α) :
    Option (List (α × β)) :=
  if dmem l a then some (l.filter (fun p => ¬ p.1 = a)) else none

/-! ### Python list primitives -/

/-- Python `l[i]` for `int` `i`: negative indices count from the end,
out-of-range indexing fails (`IndexError`). -/
def pyGet {α : Type} (l : List α) (i : ℤ) : Option α :=
  if 0 ≤ i then l.get? i.toNat
  else if (-i).toNat ≤ l.length then l.get? (l.length - (-i).toNat) else none

/-- Python `l[i] = a` for `0 ≤ i`: fails when out of range. -/
def pySet {α : Type} (l : List α) (i : ℕ) (a : α) : Option (List α) :=
  if i < l.length then some (l.set i a) else none

/-- Python `l.remove(a)`: drop the first occurrence, fail (`ValueError`)
when absent. -/
def pyRemove {α : Type} [DecidableEq α] : List α → α → Option (List α)
  | [], _ => none
  | x :: rest, a => if x = a then some rest else (pyRemove rest a).map (x :: ·)

/-! ### Edge-cost matrices -/

/-- The per-edge cost dictionary of the source, keyed by pairs of strategy
indices (Python ints). -/
abbrev Mat := ℤ × ℤ → Option Cost

def mset (m : Mat) (k : ℤ × ℤ) (v : Cost) : Mat :=
  fun k2 => if k2 = k then some v else m k2

/-- Pointwise update of a total map (models in-place mutation of a node
attribute). -/
def fupd {β : Type} (f : Node → β) (n : Node) (b : β) : Node → β :=
  fun m => if m = n then b else f m

/-! ### The engine state -/

/-- The `CostGraph` object state.  `strategies` models the (immutable)
`strategies_vector` attribute of the node objects. -/
structure CostGraph where
  leaf_strategies : List StrategiesVector
  node_lens : Node → ℕ
  strategies : Node → List Strategy
  extra_node_costs : List (Node × List Cost)
  following_dict : List (Node × Node)
  simplify : Bool
  edge_costs : List ((Node × Node) × Mat)
  parents : Node → List Node
  children : Node → List Node
  merge_pair : List (Node × Node)

def svFind (ls : List StrategiesVector) (n : Node) : Option StrategiesVector :=
  ls.find? (fun sv => sv.node = n)

/-- The `strategies_vector` attribute of node `n` (the registry's strategy
list for `n`). -/
def nodeStrategies (ls : List StrategiesVector) (n : Node) : List Strategy :=
  ((svFind ls n).map StrategiesVector.strategies).getD []

/-- One edge matrix of `_build_cost_graph`:
`edge_cost[(j, i)] = strategies_vector[i].resharding_costs[src_node][j]`. -/
def build_edge_cost (sv : StrategiesVector) (src : Node) (srcLen : ℕ) :
    Option Mat :=
  (List.range sv.strategies.length).foldlM (fun m i => do
    let st ← sv.strategies.get? i
    (List.range srcLen).foldlM (fun m2 j => do
      let c ← (st.resharding_costs src).get? j
      pure (mset m2 ((j : ℤ), (i : ℤ)) c)) m)
    (fun _ => none)

/-- Insert the edge matrix for one predecessor of `sv.node` into the
edge-cost table (the inner loop of `_build_cost_graph`). -/
def build_edge_step (g : CostGraph) (sv : StrategiesVector)
    (ec : List ((Node × Node) × Mat)) (src_node : Node) :
    Option (List ((Node × Node) × Mat)) := do
  let m ← build_edge_cost sv src_node (g.strategies src_node).length
  pure (dset ec (src_node, sv.node) m)

/-- One iteration of `_build_cost_graph` over a `StrategiesVector`: build
the edge matrices towards every predecessor, set the `parents` / `children`
attributes, and enqueue merge pairs when eligible. -/
def init_step (simplify_flag : Bool) (g : CostGraph) (sv : StrategiesVector) :
    Option CostGraph := do
  let dst_node := sv.node
  let ec ← sv.predecessor_nodes.foldlM (build_edge_step g sv) g.edge_costs
  let g := { g with
    edge_costs := ec,
    parents := fupd g.parents dst_node sv.predecessor_nodes,
    children := fupd g.children dst_node sv.successor_nodes }
  if simplify_flag && sv.check_merge then
    pure { g with
      merge_pair := g.merge_pair ++ sv.predecessor_nodes.map (fun p => (p, dst_node)) }
  else pure g

/-- The state as `CostGraph.__init__` leaves it just before
`_build_cost_graph` runs. -/
def init_state (ls : List StrategiesVector) (simplify_flag : Bool) : CostGraph :=
  { leaf_strategies := ls
    node_lens := fun n => (nodeStrategies ls n).length
    strategies := fun n => nodeStrategies ls n
    extra_node_costs := []
    following_dict := []
    simplify := simplify_flag
    edge_costs := []
    parents := fun _ => []
    children := fun _ => []
    merge_pair := [] }

/-- `CostGraph.__init__` followed by `_build_cost_graph`. -/
def init_graph (ls : List StrategiesVector) (simplify_flag : Bool) :
    Option CostGraph :=
  ls.foldlM (init_step simplify_flag) (init_state ls simplify_flag)

/-- `CostGraph.get_edge_cost`: a bare dict lookup, so a missing edge is a
`KeyError` (`none`), never a default matrix. -/
def get_edge_cost (g : CostGraph) (src_node dst_node : Node) : Option Mat :=
  dget g.edge_costs (src_node, dst_node)

/-! ### `merge_node` -/

/-- The inner selection loop of the merge map (lines 86-92 of the source):
fold over the column of resharding costs with running
`(min_cost, lowest_cost_index, dst_index)`, starting from
`(math.inf, -1, 0)` and updating on strict `<`. -/
def select_min : List Cost → Cost × ℤ × ℕ → Cost × ℤ × ℕ
  | [], acc => acc
  | c :: rest, (min_cost, best, idx) =>
      select_min rest (if c < min_cost then (c, (idx : ℤ), idx + 1) else (min_cost, best, idx + 1))

/-- The merge map of `merge_node` (lines 84-93): for each strategy index of
`src_node`, the first `dst_node` strategy index of strictly minimal
resharding cost, `-1` when no entry beats `math.inf`. -/
def build_merge_map (g : CostGraph) (src_node dst_node : Node) :
    Option (List ℤ) :=
  (List.range (g.strategies src_node).length).mapM (fun src_index => do
    let col ← (g.strategies dst_node).mapM
      (fun dst_strategy => (dst_strategy.resharding_costs src_node).get? src_index)
    pure (select_min col (⊤, (-1 : ℤ), 0)).2.1)

/-- One iteration of the extra-cost loop (lines 97-102 of the source), for
strategy index `src_index` of `src_node`. -/
def extra_step (g : CostGraph) (src_node dst_node : Node) (merge_map : List ℤ)
    (ex : List (Node × List Cost)) (src_index : ℕ) :
    Option (List (Node × List Cost)) := do
  let target_strate_index ← merge_map.get? src_index
  let target_strategy ← pyGet (g.strategies dst_node) target_strate_index
  let base ← (target_strategy.resharding_costs src_node).get? src_index
  let cur_list ← dget ex src_node
  let cur ← cur_list.get? src_index
  let l1 ← pySet cur_list src_index (cur + base)
  let ex := dset ex src_node l1
  match dget ex dst_node with
  | none => pure ex
  | some dl => do
    let cl ← dget ex src_node
    let cur2 ← cl.get? src_index
    let ed ← pyGet dl target_strate_index
    let l2 ← pySet cl src_index (cur2 + ed)
    pure (dset ex src_node l2)

/-- The extra-node-cost accrual of `merge_node` (lines 95-102 of the
source): set `extra_node_costs[src_node]` to a zero list, then per src
strategy add the resharding cost towards the merge-map target, plus the
pre-existing extra cost of `dst_node` at the target when `dst_node` is a
key of the table. -/
def extra_phase (g : CostGraph) (src_node dst_node : Node)
    (merge_map : List ℤ) : Option (List (Node × List Cost)) :=
  (List.range (g.strategies src_node).length).foldlM
    (extra_step g src_node dst_node merge_map)
    (dset g.extra_node_costs src_node
      (List.replicate (g.node_lens src_node) (0 : Cost)))

/-- The matrix derived for a new `(src_node, child_node)` pair (lines
110-115 of the source): entry `(i, j)` is the old `(dst_node, child_node)`
entry at `(merge_map[i], j)`. -/
def derive_edge_cost (g : CostGraph) (src_node : Node) (child_node : Node)
    (merge_map : List ℤ) (old : Mat) : Option Mat :=
  (List.range (g.node_lens src_node)).foldlM (fun m i =>
    (List.range (g.node_lens child_node)).foldlM (fun m2 (j : ℕ) => do
      let dst_strate_index ← merge_map.get? i
      let c ← old (dst_strate_index, (j : ℤ))
      pure (mset m2 ((i : ℤ), (j : ℤ)) c)) m)
    (fun _ => none)

/-- The new-node-pair loop of `merge_node` (lines 104-122 of the source).
When the new pair already exists the source hits `continue` (line 109), so
the accumulation branch of lines 118-122 is unreachable: the guard at line
116 is then always true and the derived matrix is simply inserted. -/
def derive_step (g : CostGraph) (src_node dst_node : Node) (merge_map : List ℤ)
    (ec : List ((Node × Node) × Mat)) (child_node : Node) :
    Option (List ((Node × Node) × Mat)) := do
  let new_node_pair := (src_node, child_node)
  let old_node_pair := (dst_node, child_node)
  if dmem ec new_node_pair then pure ec
  else do
    let old ← dget ec old_node_pair
    let em ← derive_edge_cost g src_node child_node merge_map old
    pure (dset ec new_node_pair em)

def derive_phase (g : CostGraph) (src_node dst_node : Node)
    (merge_map : List ℤ) : Option (List ((Node × Node) × Mat)) :=
  (g.children dst_node).foldlM (derive_step g src_node dst_node merge_map)
    g.edge_costs

/-- One iteration of the reconnection loop (lines 128-137 of the source),
threading the `children` map, the `parents` map and the edge-cost table. -/
def rewire_child_step (src_node dst_node : Node)
    (st : (Node → List Node) × (Node → List Node) × List ((Node × Node) × Mat))
    (child_node : Node) :
    Option ((Node → List Node) × (Node → List Node) × List ((Node × Node) × Mat)) := do
  let (ch, pa, ecs) := st
  let ch := if child_node ∈ ch src_node then ch
    else fupd ch src_node (ch src_node ++ [child_node])
  let pa := if src_node ∈ pa child_node then pa
    else fupd pa child_node (pa child_node ++ [src_node])
  -- remove dst node from cost graph when dst node has no producer
  if (pa dst_node).length = 0 then do
    let cp ← pyRemove (pa child_node) dst_node
    let pa := fupd pa child_node cp
    let ecs ← dpop ecs (dst_node, child_node)
    pure (ch, pa, ecs)
  else pure (ch, pa, ecs)

/-- The final state assembly of `merge_node` (lines 138-140 of the source):
when `dst_node` has no parents left, record it in `following_dict` and
clear its children. -/
def finalize_merge (g : CostGraph) (src_node dst_node : Node)
    (extra1 : List (Node × List Cost))
    (st : (Node → List Node) × (Node → List Node) × List ((Node × Node) × Mat)) :
    CostGraph :=
  if (st.2.1 dst_node).length = 0 then
    { g with
      extra_node_costs := extra1,
      edge_costs := st.2.2,
      parents := st.2.1,
      children := fupd st.1 dst_node [],
      following_dict := dset g.following_dict dst_node src_node }
  else
    { g with
      extra_node_costs := extra1,
      edge_costs := st.2.2,
      parents := st.2.1,
      children := st.1,
      following_dict := g.following_dict }

/-- The adjacency rewiring and full-absorption cleanup of `merge_node`
(lines 124-140 of the source), starting from the updated extra-cost table
and edge-cost table. -/
def rewire_phase (g : CostGraph) (src_node dst_node : Node)
    (extra1 : List (Node × List Cost)) (ec1 : List ((Node × Node) × Mat)) :
    Option CostGraph := do
  let dparents ← pyRemove (g.parents dst_node) src_node
  let parents1 := fupd g.parents dst_node dparents
  let schildren ← pyRemove (g.children src_node) dst_node
  let children1 := fupd g.children src_node schildren
  let ec2 ← dpop ec1 (src_node, dst_node)
  let st ← (children1 dst_node).foldlM (rewire_child_step src_node dst_node)
    (children1, parents1, ec2)
  pure (finalize_merge g src_node dst_node extra1 st)

/-- `CostGraph.merge_node(src_node, dst_node)`. -/
def merge_node (g : CostGraph) (src_node dst_node : Node) : Option CostGraph := do
  -- src_node_index = dst_node.parents.index(src_node): the index is unused,
  -- the call only raises ValueError when src_node is not a parent of dst_node
  let _ ← pyRemove (g.parents dst_node) src_node
  let merge_map ← build_merge_map g src_node dst_node
  let extra1 ← extra_phase g src_node dst_node merge_map
  let ec1 ← derive_phase g src_node dst_node merge_map
  rewire_phase g src_node dst_node extra1 ec1

/-! ### Absorption-chain resolution and the simplification driver -/

/-- `CostGraph._reindexing_src`, made total with explicit fuel: the source
recursion follows `following_dict` until the node is no longer a key (and
would not terminate on a cyclic ledger).  `simplify_graph` supplies fuel
`d.length + 1`, which suffices for every acyclic ledger. -/
def reindexing_src (d : List (Node × Node)) : ℕ → Node → Node
  | 0, src => src
  | fuel + 1, src =>
    match dget d src with
    | none => src
    | some nxt => reindexing_src d fuel nxt

/-- The ledger-compression loop at the end of `simplify_graph` (lines
154-157): rebuild `following_dict` with every value resolved through
`_reindexing_src`. -/
def reindexPhase (d : List (Node × Node)) : List (Node × Node) :=
  d.foldl (fun nd p => dset nd p.1 (reindexing_src d (d.length + 1) p.2)) []

/-- The merge-replay loop of `simplify_graph` (lines 150-152): reverse the
queue in place, then apply `merge_node` to each queued pair. -/
def merge_phase (g : CostGraph) : Option CostGraph :=
  (g.merge_pair.reverse).foldlM (fun s p => merge_node s p.1 p.2)
    { g with merge_pair := g.merge_pair.reverse }

/-- `CostGraph.simplify_graph`. -/
def simplify_graph (g : CostGraph) : Option CostGraph := do
  if g.simplify = false then pure g
  else
    let g1 ← merge_phase g
    let g2 := { g1 with merge_pair := g1.merge_pair.reverse }
    pure { g2 with following_dict := reindexPhase g2.following_dict }

/-! ### Cost accounting (for the cost-preservation property) -/

/-- The edge-cost total selected by a strategy assignment `f`: the sum over
all live edges of the matrix entry at the assigned index pair. -/
def edge_total (ec : List ((Node × Node) × Mat)) (f : Node → ℕ) : Cost :=
  (ec.map (fun e => (e.2 ((f e.1.1 : ℤ), (f e.1.2 : ℤ))).getD 0)).sum

/-- The cost entry that assignment `f` selects on edge `(a, b)` of an
edge-cost table (`0` when the edge or the entry is absent). -/
def sel (f : Node → ℕ) (ec : List ((Node × Node) × Mat)) (a b : Node) : Cost :=
  ((dget ec (a, b)).bind (fun m => m ((f a : ℤ), (f b : ℤ)))).getD 0

/-- The extra-node-cost total selected by `f` over the nodes still live
(not recorded in the absorption ledger). -/
def live_extra_total (g : CostGraph) (f : Node → ℕ) : Cost :=
  ((g.extra_node_costs.filter (fun p => ! dmem g.following_dict p.1)).map
    (fun p => (p.2.get? (f p.1)).getD 0)).sum

/-! ### Spec-side notions -/

/-- Following the absorption ledger manually: `Resolves d n t` means the
chain of records starting at `n` terminates at `t`, which has no record of
its own.  This is the specification-side reading of "transitively following
the pre-compression records". -/
inductive Resolves (d : List (Node × Node)) : Node → Node → Prop
  | terminal {n : Node} : dget d n = none → Resolves d n n
  | step {n m t : Node} : dget d n = some m → Resolves d m t → Resolves d n t

/-- Acyclicity of the absorbed-into relation, witnessed by a rank function
that strictly decreases along every ledger record and is bounded by the
ledger size on every key (any finite acyclic ledger admits one: rank by
longest chain length). -/
def AcyclicLedger (d : List (Node × Node)) : Prop :=
  ∃ r : Node → ℕ, (∀ p ∈ d, r p.2 < r p.1) ∧ (∀ p ∈ d, r p.1 ≤ d.length)

/-! ### Concrete example inputs -/

/-- An integer literal as a (finite) cost. -/
def qc (n : ℤ) : Cost := (n : WithTop ℤ)

/-- A strategy given by finitely many resharding-cost rows. -/
def stratOf (rows : List (Node × List ℤ)) : Strategy :=
  { resharding_costs := fun n => ((dget rows n).getD []).map qc }

/-- Chain `0 → 1 → 2`, two strategies per node, nodes `1` and `2` mergeable:
the simplification queue is `[(0, 1), (1, 2)]` and replaying it absorbs `2`
into `1` and then `1` into `0`. -/
def chainLS : List StrategiesVector :=
  [ { node := 0, predecessor_nodes := [], successor_nodes := [1],
      strategies := [stratOf [], stratOf []], check_merge := false },
    { node := 1, predecessor_nodes := [0], successor_nodes := [2],
      strategies := [stratOf [(0, [1, 2])], stratOf [(0, [4, 0])]],
      check_merge := true },
    { node := 2, predecessor_nodes := [1], successor_nodes := [],
      strategies := [stratOf [(1, [3, 1])], stratOf [(1, [5, 6])]],
      check_merge := true } ]

/-- Diamond `0 → 1`, `0 → 2`, `1 → 2`, one strategy per node, node `1`
mergeable into node `0`: merging hits the pre-existing edge `(0, 2)`. -/
def diamondLS : List StrategiesVector :=
  [ { node := 0, predecessor_nodes := [], successor_nodes := [1, 2],
      strategies := [stratOf []], check_merge := false },
    { node := 1, predecessor_nodes := [0], successor_nodes := [2],
      strategies := [stratOf [(0, [5])]], check_merge := true },
    { node := 2, predecessor_nodes := [0, 1], successor_nodes := [],
      strategies := [stratOf [(0, [7]), (1, [1])]], check_merge := false } ]

/-- A strategy whose only resharding cost towards node `0` is infeasible. -/
def topStrat : Strategy :=
  { resharding_costs := fun n => if n = 0 then [(⊤ : Cost)] else [] }

/-- Two-node graph `0 → 1` where node `1` is mergeable and its single
resharding cost against node `0` is `math.inf`. -/
def topLS : List StrategiesVector :=
  [ { node := 0, predecessor_nodes := [], successor_nodes := [1],
      strategies := [stratOf []], check_merge := false },
    { node := 1, predecessor_nodes := [0], successor_nodes := [],
      strategies := [topStrat], check_merge := true } ]

/-- The cost graph built from the chain registry. -/
def chainG0 : CostGraph := (init_graph chainLS true).get (by decide)

/-- The chain graph after the first replayed merge (node `2` into node `1`). -/
def chainM1 : CostGraph := (merge_node chainG0 1 2).get (by decide)

/-- The chain graph after the second replayed merge (node `1` into node `0`). -/
def chainM2 : CostGraph := (merge_node chainM1 0 1).get (by decide)

/-- The cost graph built from the infeasible-row registry. -/
def topG0 : CostGraph := (init_graph topLS true).get (by decide)

/-- The chain graph after the merge phase of `simplify_graph` (both queued
merges replayed, ledger not yet compressed). -/
def chainP1 : CostGraph := (merge_phase chainG0).get (by decide)

/-- The merge map computed for the second chain merge. -/
def chainMM : List ℤ := (build_merge_map chainM1 0 1).get (by decide)

/-- The merge map computed for the infeasible-row merge. -/
def topMM : List ℤ := (build_merge_map topG0 0 1).get (by decide)

/-- The extra-cost table computed for the infeasible-row merge. -/
def topEX : List (Node × List Cost) :=
  (extra_phase topG0 0 1 topMM).get (by decide)

/-- The chain graph after full simplification. -/
def chainG1 : CostGraph := (simplify_graph chainG0).get (by decide)

/-- The cost graph built from the diamond registry. -/
def diamondG0 : CostGraph := (init_graph diamondLS true).get (by decide)

/-- The diamond graph after full simplification. -/
def diamondG1 : CostGraph := (simplify_graph diamondG0).get (by decide)

/-- The diamond graph after the single merge of node `1` into node `0`. -/
def diamondM : CostGraph := (merge_node diamondG0 0 1).get (by decide)

/-- A strategy assignment on the chain: index `1` at node `1`, index `0`
elsewhere. -/
def chainF : Node → ℕ := fun n => if n = 1 then 1 else 0

/-- The merge map of the chain's first replayed merge (node `2` into
node `1`). -/
def chainBM : List ℤ := (build_merge_map chainG0 1 2).get (by decide)

/-- The edge matrix of `(1, 2)` in the chain graph. -/
def chainMSD : Mat := (dget chainG0.edge_costs (1, 2)).get (by decide)

/-- Strategy `0` of node `2` in the chain graph. -/
def chainST2 : Strategy := ((chainG0.strategies 2).get? 0).get (by decide)

/-! ## Lemmas: dictionary and list primitives -/

theorem dget_mem {α β : Type} [DecidableEq α] {l : List (α × β)} {a : α} {b : β}
    (h : dget l a = some b) : (a, b) ∈ l := by
  induction l with
  | nil => simp [dget] at h
  | cons p rest ih =>
    by_cases hp : p.1 = a
    · rw [dget, if_pos hp] at h
      have hb : p.2 = b := Option.some_inj.mp h
      have hpab : p = (a, b) := by
        cases p
        simp only [Prod.mk.injEq]
        exact ⟨hp, hb⟩
      rw [← hpab]
      exact List.mem_cons_self _ _
    · rw [dget, if_neg hp] at h
      exact List.mem_cons_of_mem _ (ih h)

theorem dget_append {α β : Type} [DecidableEq α] (l1 l2 : List (α × β)) (a : α) :
    dget (l1 ++ l2) a = match dget l1 a with
      | some b => some b
      | none => dget l2 a := by
  induction l1 with
  | nil => simp [dget]
  | cons p rest ih =>
    by_cases hp : p.1 = a <;> simp [dget, hp, ih]

theorem dget_map_overwrite {α β : Type} [DecidableEq α] (l : List (α × β)) (a : α) (b : β) :
    dget (l.map (fun p => if p.1 = a then (a, b) else p)) a
      = if dmem l a then some b else none := by
  induction l with
  | nil => simp [dget, dmem]
  | cons p rest ih =>
    by_cases hp : p.1 = a
    · simp [dget, dmem, hp]
    · simp only [List.map_cons, if_neg hp, dget, hp, if_false, ih]
      simp [dmem, dget, hp]

theorem dget_map_overwrite_ne {α β : Type} [DecidableEq α] (l : List (α × β))
    (a x : α) (b : β) (hx : x ≠ a) :
    dget (l.map (fun p => if p.1 = a then (a, b) else p)) x = dget l x := by
  induction l with
  | nil => simp [dget]
  | cons p rest ih =>
    by_cases hp : p.1 = a
    · simp only [List.map_cons, if_pos hp, dget]
      rw [if_neg (fun h => hx h.symm), if_neg (by rw [hp]; exact fun h => hx h.symm)]
      exact ih
    · simp only [List.map_cons, if_neg hp, dget, ih]

theorem dget_dset_self {α β : Type} [DecidableEq α] (l : List (α × β)) (a : α) (b : β) :
    dget (dset l a b) a = some b := by
  unfold dset
  by_cases hm : dmem l a
  · rw [if_pos hm, dget_map_overwrite, if_pos hm]
  · rw [if_neg hm, dget_append]
    have : dget l a = none := by
      unfold dmem at hm
      cases h : dget l a
      · rfl
      · rw [h] at hm; simp at hm
    simp [this, dget]

theorem dget_dset_ne {α β : Type} [DecidableEq α] (l : List (α × β)) (a x : α) (b : β)
    (hx : x ≠ a) : dget (dset l a b) x = dget l x := by
  unfold dset
  by_cases hm : dmem l a
  · rw [if_pos hm, dget_map_overwrite_ne _ _ _ _ hx]
  · rw [if_neg hm, dget_append]
    cases h : dget l x with
    | none => simp [dget, Ne.symm hx]
    | some b' => rfl

theorem dmem_dset {α β : Type} [DecidableEq α] (l : List (α × β)) (a x : α) (b : β) :
    dmem (dset l a b) x = true ↔ x = a ∨ dmem l x = true := by
  by_cases hx : x = a
  · subst hx
    simp [dmem, dget_dset_self]
  · rw [dmem, dget_dset_ne _ _ _ _ hx]
    simp [dmem, hx]

theorem dget_filter_out {α β : Type} [DecidableEq α] (l : List (α × β)) (a x : α) :
    dget (l.filter (fun p => ¬ p.1 = a)) x
      = if x = a then none else dget l x := by
  induction l with
  | nil => simp [dget]
  | cons p rest ih =>
    by_cases hp : p.1 = a
    · rw [List.filter_cons_of_neg (by simp [hp])]
      rw [ih]
      by_cases hx : x = a
      · simp [hx]
      · have hpx : ¬ p.1 = x := by
          rw [hp]
          intro h
          exact hx h.symm
        rw [if_neg hx, if_neg hx]
        simp only [dget]
        rw [if_neg hpx]
    · rw [List.filter_cons_of_pos (by simp [hp])]
      by_cases hpx : p.1 = x
      · have hx : ¬ x = a := by rw [← hpx]; exact hp
        simp [dget, hpx, hx]
      · simp only [dget, hpx, if_false, ih]

theorem dpop_eq_some {α β : Type} [DecidableEq α] {l l' : List (α × β)} {a : α}
    (h : dpop l a = some l') :
    l' = l.filter (fun p => ¬ p.1 = a) ∧ dmem l a = true := by
  unfold dpop at h
  by_cases hm : dmem l a
  · rw [if_pos hm] at h
    exact ⟨(Option.some_injective _ h).symm, hm⟩
  · rw [if_neg hm] at h
    exact absurd h (by simp)

theorem dget_dpop {α β : Type} [DecidableEq α] {l l' : List (α × β)} {a : α}
    (h : dpop l a = some l') (x : α) :
    dget l' x = if x = a then none else dget l x := by
  rw [(dpop_eq_some h).1, dget_filter_out]

theorem pyRemove_eq_some_of_mem {α : Type} [DecidableEq α] {l : List α} {a : α}
    (h : a ∈ l) : ∃ l', pyRemove l a = some l' := by
  induction l with
  | nil => cases h
  | cons x rest ih =>
    by_cases hx : x = a
    · exact ⟨rest, by simp [pyRemove, hx]⟩
    · rcases ih (by cases h with
        | head => exact absurd rfl hx
        | tail _ h' => exact h') with ⟨l', hl'⟩
      exact ⟨x :: l', by simp [pyRemove, hx, hl']⟩

theorem pyRemove_isSome_iff {α : Type} [DecidableEq α] (l : List α) (a : α) :
    (pyRemove l a).isSome = true ↔ a ∈ l := by
  constructor
  · intro h
    induction l with
    | nil => simp [pyRemove] at h
    | cons x rest ih =>
      by_cases hx : x = a
      · rw [hx]
        exact List.mem_cons_self _ _
      · cases hr : pyRemove rest a with
        | none => rw [pyRemove, if_neg hx, hr] at h; simp at h
        | some l2 =>
          exact List.mem_cons_of_mem _ (ih (by simp [hr]))
  · intro h
    rcases pyRemove_eq_some_of_mem h with ⟨l', hl'⟩
    simp [hl']

theorem pyRemove_nodup {α : Type} [DecidableEq α] {l l' : List α} {a : α}
    (hnd : l.Nodup) (h : pyRemove l a = some l') :
    a ∉ l' ∧ l'.Nodup ∧ ∀ x, x ≠ a → (x ∈ l' ↔ x ∈ l) := by
  induction l generalizing l' with
  | nil => simp [pyRemove] at h
  | cons y rest ih =>
    rcases List.nodup_cons.mp hnd with ⟨hy, hrest⟩
    by_cases hx : y = a
    · subst hx
      rw [pyRemove, if_pos rfl] at h
      rcases Option.some_inj.mp h with rfl
      exact ⟨hy, hrest, fun x hxa => ⟨List.mem_cons_of_mem _,
        fun hm => by cases hm with
          | head => exact absurd rfl hxa
          | tail _ h' => exact h'⟩⟩
    · rw [pyRemove, if_neg hx] at h
      rw [Option.map_eq_some'] at h
      rcases h with ⟨l2, hl2, rfl⟩
      rcases ih hrest hl2 with ⟨ha, hnd2, hiff⟩
      refine ⟨?_, List.nodup_cons.mpr ⟨fun hm => hy ((hiff y hx).mp hm), hnd2⟩, ?_⟩
      · intro hm
        cases hm with
        | head => exact hx rfl
        | tail _ h' => exact ha h'
      · intro x hxa
        constructor
        · intro hm
          cases hm with
          | head => exact List.mem_cons_self _ _
          | tail _ h' => exact List.mem_cons_of_mem _ ((hiff x hxa).mp h')
        · intro hm
          cases hm with
          | head => exact List.mem_cons_self _ _
          | tail _ h' => exact List.mem_cons_of_mem _ ((hiff x hxa).mpr h')

theorem pyGet_nonneg {α : Type} (l : List α) (i : ℤ) (h : 0 ≤ i) :
    pyGet l i = l.get? i.toNat := by
  simp [pyGet, h]

theorem pyGet_neg_one {α : Type} (l : List α) (h : l ≠ []) :
    pyGet l (-1) = l.get? (l.length - 1) := by
  have hl : 1 ≤ l.length := by
    cases l with
    | nil => exact absurd rfl h
    | cons x rest => simp
  simp [pyGet, hl]

theorem pySet_eq_some {α : Type} {l l' : List α} {i : ℕ} {a : α}
    (h : pySet l i a = some l') : l' = l.set i a ∧ i < l.length := by
  unfold pySet at h
  by_cases hi : i < l.length
  · rw [if_pos hi] at h
    exact ⟨(Option.some_injective _ h).symm, hi⟩
  · rw [if_neg hi] at h
    exact absurd h (by simp)

/-- Invariant preservation through a monadic fold in `Option`. -/
theorem foldlM_option_inv {σ α : Type} {f : σ → α → Option σ} {P : σ → Prop}
    (l : List α) (s s' : σ) (h : l.foldlM f s = some s')
    (hstep : ∀ x s1 s2, x ∈ l → f s1 x = some s2 → P s1 → P s2) (hs : P s) :
    P s' := by
  induction l generalizing s with
  | nil =>
    simp only [List.foldlM_nil] at h
    cases h
    exact hs
  | cons x rest ih =>
    rw [List.foldlM_cons] at h
    rcases Option.bind_eq_some.mp h with ⟨s1, hs1, hrest⟩
    exact ih s1 hrest
      (fun y t1 t2 hy => hstep y t1 t2 (List.mem_cons_of_mem _ hy))
      (hstep x s s1 (List.mem_cons_self _ _) hs1 hs)

/-! ## Lemmas: decomposing `merge_node` and `simplify_graph` -/

theorem merge_node_parts {g : CostGraph} {s d : Node} {g' : CostGraph}
    (h : merge_node g s d = some g') :
    ∃ dp mm ex ec, pyRemove (g.parents d) s = some dp ∧
      build_merge_map g s d = some mm ∧
      extra_phase g s d mm = some ex ∧
      derive_phase g s d mm = some ec ∧
      rewire_phase g s d ex ec = some g' := by
  unfold merge_node at h
  rcases Option.bind_eq_some.mp h with ⟨dp, hdp, h⟩
  rcases Option.bind_eq_some.mp h with ⟨mm, hmm, h⟩
  rcases Option.bind_eq_some.mp h with ⟨ex, hex, h⟩
  rcases Option.bind_eq_some.mp h with ⟨ec, hec, h⟩
  exact ⟨dp, mm, ex, ec, hdp, hmm, hex, hec, h⟩

theorem rewire_phase_parts {g : CostGraph} {s d : Node}
    {ex : List (Node × List Cost)} {ec1 : List ((Node × Node) × Mat)}
    {g' : CostGraph} (h : rewire_phase g s d ex ec1 = some g') :
    ∃ dparents schildren ec2 st,
      pyRemove (g.parents d) s = some dparents ∧
      pyRemove (g.children s) d = some schildren ∧
      dpop ec1 (s, d) = some ec2 ∧
      ((fupd g.children s schildren) d).foldlM (rewire_child_step s d)
        (fupd g.children s schildren, fupd g.parents d dparents, ec2) = some st ∧
      g' = finalize_merge g s d ex st := by
  unfold rewire_phase at h
  rcases Option.bind_eq_some.mp h with ⟨dparents, hdp, h⟩
  rcases Option.bind_eq_some.mp h with ⟨schildren, hsc, h⟩
  rcases Option.bind_eq_some.mp h with ⟨ec2, hec2, h⟩
  rcases Option.bind_eq_some.mp h with ⟨st, hst, h⟩
  exact ⟨dparents, schildren, ec2, st, hdp, hsc, hec2, hst,
    (Option.some_inj.mp h).symm⟩

theorem finalize_merge_merge_pair (g : CostGraph) (s d : Node)
    (ex : List (Node × List Cost)) (st) :
    (finalize_merge g s d ex st).merge_pair = g.merge_pair := by
  unfold finalize_merge
  split <;> rfl

theorem merge_node_merge_pair {g : CostGraph} {s d : Node} {g' : CostGraph}
    (h : merge_node g s d = some g') : g'.merge_pair = g.merge_pair := by
  rcases merge_node_parts h with ⟨dp, mm, ex, ec, _, _, _, _, hrw⟩
  rcases rewire_phase_parts hrw with ⟨dparents, schildren, ec2, st, _, _, _, _, hg'⟩
  rw [hg', finalize_merge_merge_pair]

theorem merge_phase_merge_pair {g : CostGraph} {g1 : CostGraph}
    (h : merge_phase g = some g1) : g1.merge_pair = g.merge_pair.reverse := by
  unfold merge_phase at h
  exact foldlM_option_inv (P := fun s => s.merge_pair = g.merge_pair.reverse)
    _ _ _ h (fun p s1 s2 _ hstep hp => (merge_node_merge_pair hstep).trans hp) rfl

/-- C9: `simplify_graph` replays the queued merge pairs in reverse
discovery order (the merge phase folds over `merge_pair.reverse`), and when
it completes the stored merge-pair queue is restored to exactly its
original contents and order. -/
theorem claim_C9 (g : CostGraph) (g' : CostGraph)
    (h : simplify_graph g = some g') :
    g'.merge_pair = g.merge_pair ∧
    (g.simplify = true → ∃ g1, merge_phase g = some g1 ∧
      g1.merge_pair = g.merge_pair.reverse) := by
  unfold simplify_graph at h
  by_cases hs : g.simplify = false
  · rw [if_pos hs] at h
    cases Option.some_inj.mp h
    exact ⟨rfl, fun habs => absurd habs (by rw [hs]; exact Bool.false_ne_true)⟩
  · rw [if_neg hs] at h
    rcases Option.bind_eq_some.mp h with ⟨g1, hg1, h⟩
    cases Option.some_inj.mp h
    refine ⟨?_, fun _ => ⟨g1, hg1, merge_phase_merge_pair hg1⟩⟩
    simp only [merge_phase_merge_pair hg1, List.reverse_reverse]

/-- Witness for C9 on the concrete chain graph. -/
theorem claim_C9_witness :
    simplify_graph chainG0 = some chainG1 ∧
      chainG1.merge_pair = chainG0.merge_pair := by
  have h : simplify_graph chainG0 = some chainG1 :=
    (Option.some_get (by decide)).symm
  exact ⟨h, (claim_C9 chainG0 chainG1 h).1⟩

/-! ## Lemmas: the reconnection loop -/

theorem rewire_step_cases {s d c : Node}
    {st st' : (Node → List Node) × (Node → List Node) × List ((Node × Node) × Mat)}
    (h : rewire_child_step s d st c = some st') :
    ∃ ch1 pa1,
      ch1 = (if c ∈ st.1 s then st.1 else fupd st.1 s (st.1 s ++ [c])) ∧
      pa1 = (if s ∈ st.2.1 c then st.2.1 else fupd st.2.1 c (st.2.1 c ++ [s])) ∧
      (((pa1 d).length = 0 ∧ ∃ cp ecs2,
          pyRemove (pa1 c) d = some cp ∧ dpop st.2.2 (d, c) = some ecs2 ∧
          st' = (ch1, fupd pa1 c cp, ecs2)) ∨
       (¬ (pa1 d).length = 0 ∧ st' = (ch1, pa1, st.2.2))) := by
  obtain ⟨ch, pa, ecs⟩ := st
  unfold rewire_child_step at h
  dsimp only at h
  refine ⟨_, _, rfl, rfl, ?_⟩
  by_cases hlen : ((if s ∈ pa c then pa else fupd pa c (pa c ++ [s])) d).length = 0
  · rw [if_pos hlen] at h
    rcases Option.bind_eq_some.mp h with ⟨cp, hcp, h⟩
    rcases Option.bind_eq_some.mp h with ⟨ecs2, hecs2, h⟩
    exact Or.inl ⟨hlen, cp, ecs2, hcp, hecs2, (Option.some_inj.mp h).symm⟩
  · rw [if_neg hlen] at h
    exact Or.inr ⟨hlen, (Option.some_inj.mp h).symm⟩

theorem rewire_step_parents_d {s d c : Node}
    {st st' : (Node → List Node) × (Node → List Node) × List ((Node × Node) × Mat)}
    (hc : c ≠ d) (h : rewire_child_step s d st c = some st') :
    st'.2.1 d = st.2.1 d := by
  rcases rewire_step_cases h with ⟨ch1, pa1, hch1, hpa1, hcase⟩
  have hpa1d : pa1 d = st.2.1 d := by
    rw [hpa1]
    by_cases hs : s ∈ st.2.1 c
    · rw [if_pos hs]
    · rw [if_neg hs]
      unfold fupd
      rw [if_neg (Ne.symm hc)]
  rcases hcase with ⟨_, cp, ecs2, _, _, rfl⟩ | ⟨_, rfl⟩
  · dsimp only
    unfold fupd
    rw [if_neg (Ne.symm hc)]
    exact hpa1d
  · exact hpa1d

theorem rewire_step_parents_other {s d c x : Node}
    {st st' : (Node → List Node) × (Node → List Node) × List ((Node × Node) × Mat)}
    (hx : x ≠ c) (h : rewire_child_step s d st c = some st') :
    st'.2.1 x = st.2.1 x := by
  rcases rewire_step_cases h with ⟨ch1, pa1, hch1, hpa1, hcase⟩
  have hpa1x : pa1 x = st.2.1 x := by
    rw [hpa1]
    by_cases hs : s ∈ st.2.1 c
    · rw [if_pos hs]
    · rw [if_neg hs]
      unfold fupd
      rw [if_neg hx]
  rcases hcase with ⟨_, cp, ecs2, _, _, rfl⟩ | ⟨_, rfl⟩
  · dsimp only
    unfold fupd
    rw [if_neg hx]
    exact hpa1x
  · exact hpa1x

theorem rewire_step_children_other {s d c x : Node}
    {st st' : (Node → List Node) × (Node → List Node) × List ((Node × Node) × Mat)}
    (hx : x ≠ s) (h : rewire_child_step s d st c = some st') :
    st'.1 x = st.1 x := by
  rcases rewire_step_cases h with ⟨ch1, pa1, hch1, hpa1, hcase⟩
  have hch1x : ch1 x = st.1 x := by
    rw [hch1]
    by_cases hs : c ∈ st.1 s
    · rw [if_pos hs]
    · rw [if_neg hs]
      unfold fupd
      rw [if_neg hx]
  rcases hcase with ⟨_, cp, ecs2, _, _, rfl⟩ | ⟨_, rfl⟩ <;> exact hch1x

theorem rewire_step_edges_none {s d c : Node} {k : Node × Node}
    {st st' : (Node → List Node) × (Node → List Node) × List ((Node × Node) × Mat)}
    (h : rewire_child_step s d st c = some st')
    (hk : dget st.2.2 k = none) : dget st'.2.2 k = none := by
  rcases rewire_step_cases h with ⟨ch1, pa1, hch1, hpa1, hcase⟩
  rcases hcase with ⟨_, cp, ecs2, _, hecs2, rfl⟩ | ⟨_, rfl⟩
  · dsimp only
    rw [dget_dpop hecs2]
    split
    · rfl
    · exact hk
  · exact hk

theorem rewire_step_absorb {s d c : Node}
    {st st' : (Node → List Node) × (Node → List Node) × List ((Node × Node) × Mat)}
    (hc : c ≠ d) (hzero : (st.2.1 d).length = 0)
    (h : rewire_child_step s d st c = some st') :
    dget st'.2.2 (d, c) = none ∧
      ((st.2.1 c).Nodup → d ∉ st'.2.1 c ∧ (st'.2.1 c).Nodup) := by
  rcases rewire_step_cases h with ⟨ch1, pa1, hch1, hpa1, hcase⟩
  have hpa1d : pa1 d = st.2.1 d := by
    rw [hpa1]
    by_cases hs : s ∈ st.2.1 c
    · rw [if_pos hs]
    · rw [if_neg hs]
      unfold fupd
      rw [if_neg (Ne.symm hc)]
  rcases hcase with ⟨_, cp, ecs2, hcp, hecs2, rfl⟩ | ⟨hlen, rfl⟩
  · constructor
    · dsimp only
      rw [dget_dpop hecs2, if_pos rfl]
    · intro hnd
      have hpa1c : pa1 c = st.2.1 c ∨ (pa1 c = st.2.1 c ++ [s] ∧ s ∉ st.2.1 c) := by
        rw [hpa1]
        by_cases hs : s ∈ st.2.1 c
        · exact Or.inl (by rw [if_pos hs])
        · refine Or.inr ⟨?_, hs⟩
          rw [if_neg hs]
          unfold fupd
          rw [if_pos rfl]
      have hnd1 : (pa1 c).Nodup := by
        rcases hpa1c with hq | ⟨hq, hs⟩
        · rw [hq]; exact hnd
        · rw [hq]
          exact List.Nodup.append hnd (List.nodup_singleton s) (by simpa using hs)
      have hres := pyRemove_nodup hnd1 hcp
      dsimp only
      unfold fupd
      rw [if_pos rfl]
      exact ⟨hres.1, hres.2.1⟩
  · exact absurd (by rw [hpa1d]; exact hzero) hlen



theorem rewire_loop_parents_d {s d : Node} {cs : List Node}
    {st0 st' : (Node → List Node) × (Node → List Node) × List ((Node × Node) × Mat)}
    (hd : d ∉ cs) (h : cs.foldlM (rewire_child_step s d) st0 = some st') :
    st'.2.1 d = st0.2.1 d :=
  foldlM_option_inv (P := fun st => st.2.1 d = st0.2.1 d) cs st0 st' h
    (fun c s1 s2 hcmem hstep hp =>
      (rewire_step_parents_d (fun hcd => hd (by rw [← hcd]; exact hcmem)) hstep).trans hp)
    rfl

theorem rewire_loop_parents_notin {s d x : Node} {cs : List Node}
    {st0 st' : (Node → List Node) × (Node → List Node) × List ((Node × Node) × Mat)}
    (hx : x ∉ cs) (h : cs.foldlM (rewire_child_step s d) st0 = some st') :
    st'.2.1 x = st0.2.1 x :=
  foldlM_option_inv (P := fun st => st.2.1 x = st0.2.1 x) cs st0 st' h
    (fun c s1 s2 hcmem hstep hp =>
      (rewire_step_parents_other (fun hxc => hx (by rw [hxc]; exact hcmem)) hstep).trans hp)
    rfl

theorem rewire_loop_children_other {s d x : Node} {cs : List Node}
    {st0 st' : (Node → List Node) × (Node → List Node) × List ((Node × Node) × Mat)}
    (hx : x ≠ s) (h : cs.foldlM (rewire_child_step s d) st0 = some st') :
    st'.1 x = st0.1 x :=
  foldlM_option_inv (P := fun st => st.1 x = st0.1 x) cs st0 st' h
    (fun c s1 s2 _ hstep hp => (rewire_step_children_other hx hstep).trans hp) rfl

theorem rewire_loop_edges_none {s d : Node} {k : Node × Node} {cs : List Node}
    {st0 st' : (Node → List Node) × (Node → List Node) × List ((Node × Node) × Mat)}
    (hk : dget st0.2.2 k = none)
    (h : cs.foldlM (rewire_child_step s d) st0 = some st') :
    dget st'.2.2 k = none :=
  foldlM_option_inv (P := fun st => dget st.2.2 k = none) cs st0 st' h
    (fun c s1 s2 _ hstep hp => rewire_step_edges_none hstep hp) hk

/-- Full-absorption behaviour of the reconnection loop: when `dst` has no
parents left, every iterated child has the `(dst, child)` edge popped and
`dst` removed from its parents. -/
theorem rewire_loop_absorb {s d : Node} (cs : List Node)
    (st0 st' : (Node → List Node) × (Node → List Node) × List ((Node × Node) × Mat))
    (hnd : cs.Nodup) (hd : d ∉ cs) (hzero : (st0.2.1 d).length = 0)
    (h : cs.foldlM (rewire_child_step s d) st0 = some st') :
    ∀ c ∈ cs, dget st'.2.2 (d, c) = none ∧
      ((st0.2.1 c).Nodup → d ∉ st'.2.1 c) := by
  induction cs generalizing st0 with
  | nil => intro c hc; cases hc
  | cons c0 rest ih =>
    rw [List.foldlM_cons] at h
    rcases Option.bind_eq_some.mp h with ⟨st1, hst1, hrest⟩
    have hc0d : c0 ≠ d := fun hq => hd (hq ▸ List.mem_cons_self _ _)
    have hd_rest : d ∉ rest := fun hq => hd (List.mem_cons_of_mem _ hq)
    have hnd_rest : rest.Nodup := (List.nodup_cons.mp hnd).2
    have hc0_rest : c0 ∉ rest := (List.nodup_cons.mp hnd).1
    have habs := rewire_step_absorb hc0d hzero hst1
    have hst1d : st1.2.1 d = st0.2.1 d := rewire_step_parents_d hc0d hst1
    intro c hc
    cases hc with
    | head =>
      refine ⟨rewire_loop_edges_none habs.1 hrest, fun hnodc => ?_⟩
      have := (habs.2 hnodc).1
      rw [rewire_loop_parents_notin hc0_rest hrest]
      exact this
    | tail _ hcrest =>
      have hcne : c ≠ c0 := fun hq => hc0_rest (hq ▸ hcrest)
      have hst1c : st1.2.1 c = st0.2.1 c :=
        rewire_step_parents_other hcne hst1
      have := ih st1 hnd_rest hd_rest (by rw [hst1d]; exact hzero) hrest c hcrest
      exact ⟨this.1, fun hnodc => this.2 (by rw [hst1c]; exact hnodc)⟩

theorem rewire_step_partial {s d c : Node}
    {st st' : (Node → List Node) × (Node → List Node) × List ((Node × Node) × Mat)}
    (hc : c ≠ d) (hlen : ¬ (st.2.1 d).length = 0)
    (h : rewire_child_step s d st c = some st') :
    st'.2.2 = st.2.2 ∧ (∀ x, d ≠ s → (d ∈ st'.2.1 x ↔ d ∈ st.2.1 x)) := by
  rcases rewire_step_cases h with ⟨ch1, pa1, hch1, hpa1, hcase⟩
  have hpa1d : pa1 d = st.2.1 d := by
    rw [hpa1]
    by_cases hs : s ∈ st.2.1 c
    · rw [if_pos hs]
    · rw [if_neg hs]
      unfold fupd
      rw [if_neg (Ne.symm hc)]
  rcases hcase with ⟨habs, _, _, _, _, _⟩ | ⟨_, rfl⟩
  · exact absurd (by rw [hpa1d] at habs; exact habs) hlen
  · refine ⟨rfl, fun x hds => ?_⟩
    dsimp only
    rw [hpa1]
    by_cases hs : s ∈ st.2.1 c
    · rw [if_pos hs]
    · rw [if_neg hs]
      unfold fupd
      by_cases hx : x = c
      · rw [if_pos hx, hx]
        simp [hds]
      · rw [if_neg hx]

/-- Partial-absorption behaviour of the reconnection loop: when `dst` keeps
a parent, the edge table is untouched and `dst` membership in any parents
list is unchanged. -/
theorem rewire_loop_partial {s d : Node} (cs : List Node)
    (st0 st' : (Node → List Node) × (Node → List Node) × List ((Node × Node) × Mat))
    (hd : d ∉ cs) (hds : d ≠ s) (hlen : ¬ (st0.2.1 d).length = 0)
    (h : cs.foldlM (rewire_child_step s d) st0 = some st') :
    st'.2.2 = st0.2.2 ∧ (∀ x, d ∈ st'.2.1 x ↔ d ∈ st0.2.1 x) := by
  have := foldlM_option_inv
    (P := fun st => st.2.2 = st0.2.2 ∧ (∀ x, d ∈ st.2.1 x ↔ d ∈ st0.2.1 x) ∧
      st.2.1 d = st0.2.1 d)
    cs st0 st' h
    (fun c s1 s2 hcmem hstep hp => by
      have hcd : c ≠ d := fun hq => hd (hq ▸ hcmem)
      have hpart := rewire_step_partial hcd (by rw [hp.2.2]; exact hlen) hstep
      exact ⟨hpart.1.trans hp.1,
        fun x => ((hpart.2 x hds)).trans (hp.2.1 x),
        (rewire_step_parents_d hcd hstep).trans hp.2.2⟩)
    ⟨rfl, fun x => Iff.rfl, rfl⟩
  exact ⟨this.1, this.2.1⟩

/-! ## Lemmas: the derivation loop and full claim C6 -/

theorem pyRemove_empty_iff {α : Type} [DecidableEq α] {l l' : List α} {a : α}
    (h : pyRemove l a = some l') : l' = [] ↔ l = [a] := by
  cases l with
  | nil => simp [pyRemove] at h
  | cons x rest =>
    by_cases hx : x = a
    · rw [pyRemove, if_pos hx] at h
      cases Option.some_inj.mp h
      subst hx
      constructor
      · intro hq
        rw [hq]
      · intro hq
        simpa using hq
    · rw [pyRemove, if_neg hx] at h
      rcases Option.map_eq_some'.mp h with ⟨l2, hl2, rfl⟩
      constructor
      · intro hq
        cases hq
      · intro hq
        injection hq with hq1 hq2
        exact absurd hq1 hx

theorem derive_step_cases {g : CostGraph} {s d : Node} {mm : List ℤ}
    {ec ec' : List ((Node × Node) × Mat)} {c : Node}
    (h : derive_step g s d mm ec c = some ec') :
    (dmem ec (s, c) = true ∧ ec' = ec) ∨
    (dmem ec (s, c) = false ∧ ∃ old em, dget ec (d, c) = some old ∧
      derive_edge_cost g s c mm old = some em ∧ ec' = dset ec (s, c) em) := by
  unfold derive_step at h
  dsimp only at h
  by_cases hm : dmem ec (s, c)
  · rw [if_pos hm] at h
    exact Or.inl ⟨hm, (Option.some_inj.mp h).symm⟩
  · rw [if_neg hm] at h
    rcases Option.bind_eq_some.mp h with ⟨old, hold, h⟩
    rcases Option.bind_eq_some.mp h with ⟨em, hem, h⟩
    exact Or.inr ⟨Bool.not_eq_true _ ▸ hm, old, em, hold, hem,
      (Option.some_inj.mp h).symm⟩

/-- The derivation loop never touches edge entries whose source is not
`src_node`. -/
theorem derive_phase_other {g : CostGraph} {s d : Node} {mm : List ℤ}
    {ec1 : List ((Node × Node) × Mat)}
    (h : derive_phase g s d mm = some ec1) (k : Node × Node) (hk : k.1 ≠ s) :
    dget ec1 k = dget g.edge_costs k := by
  unfold derive_phase at h
  exact foldlM_option_inv (P := fun ec => dget ec k = dget g.edge_costs k)
    _ _ _ h
    (fun c e1 e2 _ hstep hp => by
      rcases derive_step_cases hstep with ⟨_, rfl⟩ | ⟨_, old, em, _, _, rfl⟩
      · exact hp
      · rw [dget_dset_ne _ _ _ _ (fun hq => hk (by rw [hq]))]
        exact hp) rfl

/-- C6: after `merge_node(src, dst)`, if `src` was the last parent of `dst`
then `dst` is fully removed: its children list is cleared, every former
child drops `dst` from its parents, every `(dst, child)` edge is gone from
the edge-cost table, and the absorption ledger records `dst ↦ src`.  If
`dst` retains another parent, none of that removal happens: the ledger, the
children list of `dst`, `dst`-membership in each child's parents and each
`(dst, child)` edge are all unchanged. -/
theorem claim_C6 (g : CostGraph) (s d : Node) (g' : CostGraph)
    (h : merge_node g s d = some g')
    (hsd : s ≠ d)
    (hdd : d ∉ g.children d)
    (hndc : (g.children d).Nodup) :
    (g.parents d = [s] →
      g'.children d = [] ∧
      dget g'.following_dict d = some s ∧
      ∀ c ∈ g.children d,
        ((g.parents c).Nodup → d ∉ g'.parents c) ∧
        get_edge_cost g' d c = none) ∧
    (g.parents d ≠ [s] →
      g'.following_dict = g.following_dict ∧
      g'.children d = g.children d ∧
      ∀ c ∈ g.children d,
        (d ∈ g'.parents c ↔ d ∈ g.parents c) ∧
        get_edge_cost g' d c = get_edge_cost g d c) := by
  rcases merge_node_parts h with ⟨dp0, mm, ex, ec1, hdp0, hmm, hex, hec1, hrw⟩
  rcases rewire_phase_parts hrw with ⟨dparents, schildren, ec2, st, hdp, hsc, hec2, hst, hg'⟩
  have hch1d : (fupd g.children s schildren) d = g.children d := by
    unfold fupd
    rw [if_neg (Ne.symm hsd)]
  rw [hch1d] at hst
  have hpa0d : (fupd g.parents d dparents) d = dparents := by
    unfold fupd
    rw [if_pos rfl]
  constructor
  · -- full absorption
    intro hfull
    have hdparents : dparents = [] := by
      rw [hfull] at hdp
      rw [pyRemove, if_pos rfl] at hdp
      exact (Option.some_inj.mp hdp).symm
    have hzero : (((fupd g.children s schildren), (fupd g.parents d dparents), ec2).2.1 d).length = 0 := by
      dsimp only
      rw [hpa0d, hdparents]
      rfl
    have hstd : st.2.1 d = dparents := by
      rw [rewire_loop_parents_d hdd hst]
      exact hpa0d
    have hcond : (st.2.1 d).length = 0 := by rw [hstd, hdparents]; rfl
    have habs := rewire_loop_absorb _ _ _ hndc hdd hzero hst
    have hgparts : g'.children d = [] ∧ g'.following_dict = dset g.following_dict d s ∧
        g'.parents = st.2.1 ∧ g'.edge_costs = st.2.2 := by
      rw [hg']
      unfold finalize_merge
      rw [if_pos hcond]
      refine ⟨?_, rfl, rfl, rfl⟩
      simp [fupd]
    refine ⟨hgparts.1, ?_, ?_⟩
    · rw [hgparts.2.1, dget_dset_self]
    · intro c hc
      have hcd : c ≠ d := fun hq => hdd (hq ▸ hc)
      have := habs c hc
      refine ⟨fun hndp => ?_, ?_⟩
      · rw [hgparts.2.2.1]
        refine this.2 ?_
        dsimp only
        unfold fupd
        rw [if_neg hcd]
        exact hndp
      · unfold get_edge_cost
        rw [hgparts.2.2.2]
        exact this.1
  · -- dst retains another parent
    intro hpartial
    have hdparents : dparents ≠ [] := by
      intro hq
      exact hpartial ((pyRemove_empty_iff hdp).mp hq)
    have hlen : ¬ (((fupd g.children s schildren), (fupd g.parents d dparents), ec2).2.1 d).length = 0 := by
      dsimp only
      rw [hpa0d]
      simpa [List.length_eq_zero] using hdparents
    have hpart := rewire_loop_partial _ _ _ hdd (Ne.symm hsd) hlen hst
    have hstd : st.2.1 d = dparents := by
      rw [rewire_loop_parents_d hdd hst]
      exact hpa0d
    have hcond : ¬ (st.2.1 d).length = 0 := by
      rw [hstd]
      simpa [List.length_eq_zero] using hdparents
    have hgparts : g'.children d = g.children d ∧ g'.following_dict = g.following_dict ∧
        g'.parents = st.2.1 ∧ g'.edge_costs = st.2.2 := by
      rw [hg']
      unfold finalize_merge
      rw [if_neg hcond]
      refine ⟨?_, rfl, rfl, rfl⟩
      exact (rewire_loop_children_other (Ne.symm hsd) hst).trans hch1d
    refine ⟨hgparts.2.1, hgparts.1, ?_⟩
    intro c hc
    have hcd : c ≠ d := fun hq => hdd (hq ▸ hc)
    constructor
    · rw [hgparts.2.2.1, (hpart.2 c)]
      dsimp only
      unfold fupd
      rw [if_neg hcd]
    · unfold get_edge_cost
      rw [hgparts.2.2.2, hpart.1]
      dsimp only
      rw [dget_dpop hec2, if_neg (by
        intro hq
        exact hsd (by injection hq with h1 _; exact h1.symm))]
      exact derive_phase_other hec1 (d, c) (Ne.symm hsd)

/-- Witness for C6 on the diamond graph: merging node `1` into node `0`
fully absorbs node `1`. -/
theorem claim_C6_witness :
    merge_node diamondG0 0 1 = some diamondM ∧
      (diamondG0.parents 1 = [0] → diamondM.children 1 = [] ∧
        dget diamondM.following_dict 1 = some 0 ∧
        ∀ c ∈ diamondG0.children 1,
          ((diamondG0.parents c).Nodup → 1 ∉ diamondM.parents c) ∧
          get_edge_cost diamondM 1 c = none) := by
  have h : merge_node diamondG0 0 1 = some diamondM :=
    (Option.some_get (by decide)).symm
  exact ⟨h, (claim_C6 diamondG0 0 1 diamondM h
    (by decide) (by decide) (by decide)).1⟩

/-! ## Lemmas: edge keys of the build phase, and claim C8 -/

theorem build_edge_fold_keys (g : CostGraph) (sv : StrategiesVector) :
    ∀ (ps : List Node) (ec0 ec' : List ((Node × Node) × Mat)),
      ps.foldlM (build_edge_step g sv) ec0 = some ec' →
      ∀ k : Node × Node, dmem ec' k = true ↔
        (dmem ec0 k = true ∨ (k.2 = sv.node ∧ k.1 ∈ ps)) := by
  intro ps
  induction ps with
  | nil =>
    intro ec0 ec' h k
    rw [List.foldlM_nil] at h
    cases Option.some_inj.mp h
    simp
  | cons p rest ih =>
    intro ec0 ec' h k
    rw [List.foldlM_cons] at h
    rcases Option.bind_eq_some.mp h with ⟨ec1, hec1, hrest⟩
    unfold build_edge_step at hec1
    rcases Option.bind_eq_some.mp hec1 with ⟨m, hm, hec1⟩
    cases Option.some_inj.mp hec1
    rw [ih _ _ hrest k, dmem_dset]
    obtain ⟨k1, k2⟩ := k
    simp only [Prod.mk.injEq, List.mem_cons]
    constructor
    · rintro ((⟨rfl, rfl⟩ | hk) | ⟨h2, h1⟩)
      · exact Or.inr ⟨rfl, Or.inl rfl⟩
      · exact Or.inl hk
      · exact Or.inr ⟨h2, Or.inr h1⟩
    · rintro (hk | ⟨h2, rfl | h1⟩)
      · exact Or.inl (Or.inr hk)
      · exact Or.inl (Or.inl ⟨rfl, h2⟩)
      · exact Or.inr ⟨h2, h1⟩

theorem init_step_edges {flag : Bool} {g g2 : CostGraph} {sv : StrategiesVector}
    (h : init_step flag g sv = some g2) :
    ∃ ec, sv.predecessor_nodes.foldlM (build_edge_step g sv) g.edge_costs = some ec ∧
      g2.edge_costs = ec := by
  unfold init_step at h
  rcases Option.bind_eq_some.mp h with ⟨ec, hec, h⟩
  refine ⟨ec, hec, ?_⟩
  dsimp only at h
  split at h <;> (cases Option.some_inj.mp h; rfl)

theorem init_fold_edge_keys (flag : Bool) :
    ∀ (ls' : List StrategiesVector) (g1 g : CostGraph),
      ls'.foldlM (init_step flag) g1 = some g →
      ∀ k : Node × Node, dmem g.edge_costs k = true ↔
        (dmem g1.edge_costs k = true ∨
          ∃ sv ∈ ls', k.2 = sv.node ∧ k.1 ∈ sv.predecessor_nodes) := by
  intro ls'
  induction ls' with
  | nil =>
    intro g1 g h k
    rw [List.foldlM_nil] at h
    cases Option.some_inj.mp h
    simp
  | cons sv rest ih =>
    intro g1 g h k
    rw [List.foldlM_cons] at h
    rcases Option.bind_eq_some.mp h with ⟨g2, hg2, hrest⟩
    rcases init_step_edges hg2 with ⟨ec, hec, hg2ec⟩
    rw [ih _ _ hrest k, hg2ec,
      build_edge_fold_keys g1 sv sv.predecessor_nodes g1.edge_costs ec hec k]
    constructor
    · rintro ((hk | hnew) | ⟨sv', hsv', hk⟩)
      · exact Or.inl hk
      · exact Or.inr ⟨sv, List.mem_cons_self _ _, hnew⟩
      · exact Or.inr ⟨sv', List.mem_cons_of_mem _ hsv', hk⟩
    · rintro (hk | ⟨sv', hsv', hk⟩)
      · exact Or.inl (Or.inl hk)
      · rcases List.mem_cons.mp hsv' with rfl | hsv''
        · exact Or.inl (Or.inr hk)
        · exact Or.inr ⟨sv', hsv'', hk⟩

theorem finalize_merge_edge_costs (g : CostGraph) (s d : Node)
    (ex : List (Node × List Cost)) (st) :
    (finalize_merge g s d ex st).edge_costs = st.2.2 := by
  unfold finalize_merge
  split <;> rfl

/-- C8: `get_edge_cost` returns the stored matrix exactly for currently
adjacent pairs and fails (`KeyError`, modelled as `none`) otherwise: for
pairs never declared adjacent at build time (after `init_graph`,
an edge matrix exists precisely for declared (predecessor, node) pairs),
for the `(src, dst)` edge discarded by every merge, and for the
`(dst, child)` edges discarded by a fully absorbing merge. -/
theorem claim_C8 :
    (∀ (g : CostGraph) (s d : Node), dmem g.edge_costs (s, d) = false →
      get_edge_cost g s d = none) ∧
    (∀ (ls : List StrategiesVector) (flag : Bool) (g : CostGraph),
      init_graph ls flag = some g → ∀ s d : Node,
      ((∃ m, get_edge_cost g s d = some m) ↔
        ∃ sv ∈ ls, sv.node = d ∧ s ∈ sv.predecessor_nodes)) ∧
    (∀ (g : CostGraph) (s d : Node) (g' : CostGraph),
      merge_node g s d = some g' → s ≠ d →
      get_edge_cost g' s d = none ∧
      (d ∉ g.children d → (g.children d).Nodup → g.parents d = [s] →
        ∀ c ∈ g.children d, get_edge_cost g' d c = none)) := by
  refine ⟨?_, ?_, ?_⟩
  · intro g s d hmem
    unfold get_edge_cost
    unfold dmem at hmem
    cases hq : dget g.edge_costs (s, d)
    · rfl
    · rw [hq] at hmem
      simp at hmem
  · intro ls flag g hinit s d
    have hkeys := init_fold_edge_keys flag ls (init_state ls flag) g hinit (s, d)
    have hbase : dmem (init_state ls flag).edge_costs (s, d) = false := rfl
    rw [hbase] at hkeys
    unfold get_edge_cost
    constructor
    · intro hm
      rcases hm with ⟨m, hm⟩
      have : dmem g.edge_costs (s, d) = true := by
        unfold dmem
        rw [hm]
        rfl
      rcases hkeys.mp this with hq | ⟨sv, hsv, hk1, hk2⟩
      · cases hq
      · exact ⟨sv, hsv, hk1.symm, hk2⟩
    · intro hex
      rcases hex with ⟨sv, hsv, hnode, hpred⟩
      have : dmem g.edge_costs (s, d) = true :=
        hkeys.mpr (Or.inr ⟨sv, hsv, hnode.symm, hpred⟩)
      unfold dmem at this
      cases hq : dget g.edge_costs (s, d)
      · rw [hq] at this
        simp at this
      · exact ⟨_, rfl⟩
  · intro g s d g' h hsd
    rcases merge_node_parts h with ⟨dp0, mm, ex, ec1, hdp0, hmm, hex, hec1, hrw⟩
    rcases rewire_phase_parts hrw with
      ⟨dparents, schildren, ec2, st, hdp, hsc, hec2, hst, hg'⟩
    have hgec : g'.edge_costs = st.2.2 := by
      rw [hg', finalize_merge_edge_costs]
    have hnone : dget ec2 (s, d) = none := by
      rw [dget_dpop hec2, if_pos rfl]
    constructor
    · unfold get_edge_cost
      rw [hgec]
      exact rewire_loop_edges_none hnone hst
    · intro hdd hndc hfull c hc
      have hch1d : (fupd g.children s schildren) d = g.children d := by
        unfold fupd
        rw [if_neg (Ne.symm hsd)]
      rw [hch1d] at hst
      have hdparents : dparents = [] := by
        rw [hfull] at hdp
        rw [pyRemove, if_pos rfl] at hdp
        exact (Option.some_inj.mp hdp).symm
      have hzero : (((fupd g.children s schildren), (fupd g.parents d dparents),
          ec2).2.1 d).length = 0 := by
        dsimp only
        unfold fupd
        rw [if_pos rfl, hdparents]
        rfl
      have habs := rewire_loop_absorb _ _ _ hndc hdd hzero hst
      unfold get_edge_cost
      rw [hgec]
      exact (habs c hc).1

/-- Witness for C8: part one on the simplified chain graph, part two on the
chain registry, part three on the diamond merge. -/
theorem claim_C8_witness :
    (get_edge_cost chainG1 1 2 = none) ∧
    (init_graph chainLS true = some chainG0 ∧
      (∃ m, get_edge_cost chainG0 0 1 = some m) ∧
      ¬ (∃ m, get_edge_cost chainG0 0 2 = some m)) ∧
    (merge_node diamondG0 0 1 = some diamondM ∧
      get_edge_cost diamondM 0 1 = none ∧ get_edge_cost diamondM 1 2 = none) := by
  have hc : init_graph chainLS true = some chainG0 :=
    (Option.some_get (by decide)).symm
  have hd : merge_node diamondG0 0 1 = some diamondM :=
    (Option.some_get (by decide)).symm
  refine ⟨?_, ⟨hc, ?_, ?_⟩, ?_⟩
  · exact claim_C8.1 chainG1 1 2 (by decide)
  · exact (claim_C8.2.1 chainLS true chainG0 hc 0 1).mpr
      ⟨chainLS.get ⟨1, by decide⟩, List.get_mem _ _ _, by decide, by decide⟩
  · intro hm
    rcases hm with ⟨m, hm⟩
    rw [claim_C8.1 chainG0 0 2 (by decide)] at hm
    exact Option.noConfusion hm
  · have h2 := claim_C8.2.2 diamondG0 0 1 diamondM hd (by decide)
    exact ⟨hd, h2.1, h2.2 (by decide) (by decide) (by decide) 2 (by decide)⟩

/-! ## Lemmas: the merge-map selection loop, claims C4 and C10 -/

theorem select_min_none {mc : Cost} {bi : ℤ} :
    ∀ (col : List Cost) (idx : ℕ), (∀ c ∈ col, ¬ c < mc) →
      select_min col (mc, bi, idx) = (mc, bi, idx + col.length) := by
  intro col
  induction col with
  | nil => intro idx _; simp [select_min]
  | cons c rest ih =>
    intro idx hall
    rw [select_min, if_neg (hall c (List.mem_cons_self _ _))]
    rw [ih (idx + 1) (fun c' hc' => hall c' (List.mem_cons_of_mem _ hc'))]
    simp only [List.length_cons]
    ring_nf

theorem select_min_found :
    ∀ (col : List Cost) (mc : Cost) (bi : ℤ) (idx : ℕ),
      (∃ c ∈ col, c < mc) →
      ∃ j : ℕ, j < col.length ∧
        (select_min col (mc, bi, idx)).2.1 = ((idx + j : ℕ) : ℤ) ∧
        ∃ cj, col.get? j = some cj ∧ cj < mc ∧
          (∀ k ck, col.get? k = some ck → cj ≤ ck) ∧
          (∀ k, k < j → ∀ ck, col.get? k = some ck → cj < ck) := by
  intro col
  induction col with
  | nil =>
    intro mc bi idx h
    rcases h with ⟨c, hc, _⟩
    cases hc
  | cons c rest ih =>
    intro mc bi idx h
    by_cases hc : c < mc
    · rw [select_min, if_pos hc]
      by_cases hrest : ∃ c' ∈ rest, c' < c
      · rcases ih c (idx : ℤ) (idx + 1) hrest with
          ⟨j', hj', hbest, cj, hcj, hlt, hle, hstrict⟩
        refine ⟨j' + 1, by simpa using Nat.succ_lt_succ hj', ?_, cj, hcj, hlt.trans hc, ?_, ?_⟩
        · rw [hbest]
          congr 1
          omega
        · intro k ck hck
          cases k with
          | zero =>
            cases Option.some_inj.mp hck
            exact le_of_lt hlt
          | succ k' => exact hle k' ck hck
        · intro k hk ck hck
          cases k with
          | zero =>
            cases Option.some_inj.mp hck
            exact hlt
          | succ k' => exact hstrict k' (Nat.lt_of_succ_lt_succ hk) ck hck
      · push_neg at hrest
        rw [select_min_none rest (idx + 1) (fun c' hc' => not_lt.mpr (hrest c' hc'))]
        refine ⟨0, Nat.succ_pos _, by simp, c, rfl, hc, ?_, ?_⟩
        · intro k ck hck
          cases k with
          | zero =>
            cases Option.some_inj.mp hck
            exact le_refl _
          | succ k' => exact hrest ck (List.get?_mem hck)
        · intro k hk
          cases hk
    · rw [select_min, if_neg hc]
      have hrest : ∃ c' ∈ rest, c' < mc := by
        rcases h with ⟨c', hc', hlt⟩
        cases hc' with
        | head => exact absurd hlt hc
        | tail _ hmem => exact ⟨c', hmem, hlt⟩
      rcases ih mc bi (idx + 1) hrest with ⟨j', hj', hbest, cj, hcj, hlt, hle, hstrict⟩
      have hcjc : cj < c := lt_of_lt_of_le hlt (not_lt.mp hc)
      refine ⟨j' + 1, by simpa using Nat.succ_lt_succ hj', ?_, cj, hcj, hlt, ?_, ?_⟩
      · rw [hbest]
        congr 1
        omega
      · intro k ck hck
        cases k with
        | zero =>
          cases Option.some_inj.mp hck
          exact le_of_lt hcjc
        | succ k' => exact hle k' ck hck
      · intro k hk ck hck
        cases k with
        | zero =>
          cases Option.some_inj.mp hck
          exact hcjc
        | succ k' => exact hstrict k' (Nat.lt_of_succ_lt_succ hk) ck hck

theorem mapM_option_get {α β : Type} (f : α → Option β) :
    ∀ (l : List α) (res : List β), l.mapM f = some res →
      res.length = l.length ∧
      ∀ k a, l.get? k = some a → ∃ b, f a = some b ∧ res.get? k = some b := by
  intro l
  induction l with
  | nil =>
    intro res h
    rw [List.mapM_nil] at h
    cases Option.some_inj.mp h
    exact ⟨rfl, fun k a hk => by cases k <;> cases hk⟩
  | cons a rest ih =>
    intro res h
    rw [List.mapM_cons] at h
    rcases Option.bind_eq_some.mp h with ⟨b, hb, h⟩
    rcases Option.bind_eq_some.mp h with ⟨bs, hbs, h⟩
    cases Option.some_inj.mp h
    rcases ih bs hbs with ⟨hlen, hget⟩
    refine ⟨by simp [hlen], fun k x hk => ?_⟩
    cases k with
    | zero =>
      cases Option.some_inj.mp hk
      exact ⟨b, hb, rfl⟩
    | succ k' => exact hget k' x hk

theorem build_merge_map_get {g : CostGraph} {s d : Node} {mm : List ℤ}
    (h : build_merge_map g s d = some mm) :
    mm.length = (g.strategies s).length ∧
    ∀ i, i < (g.strategies s).length →
      ∃ col, (g.strategies d).mapM
          (fun dst_strategy => (dst_strategy.resharding_costs s).get? i) = some col ∧
        mm.get? i = some (select_min col (⊤, (-1 : ℤ), 0)).2.1 := by
  unfold build_merge_map at h
  rcases mapM_option_get _ _ _ h with ⟨hlen, hget⟩
  rw [List.length_range] at hlen
  refine ⟨hlen, fun i hi => ?_⟩
  have hr : (List.range (g.strategies s).length).get? i = some i := by
    rw [List.get?_range hi]
  rcases hget i i hr with ⟨b, hb, hmmi⟩
  rcases Option.bind_eq_some.mp hb with ⟨col, hcol, hpure⟩
  exact ⟨col, hcol, by rw [hmmi, ← Option.some_inj.mp hpure]⟩

/-- C4: in `merge_node(src, dst)` the merge map sends each src strategy
index `i` (whose cost row has at least one feasible entry) to the dst index
`j` of minimal resharding cost; ties go to the lowest `j`, and the chosen
entry is strictly below the infeasible sentinel, so an infeasible entry is
never selected over a feasible one. -/
theorem claim_C4 (g : CostGraph) (s d : Node) (mm : List ℤ)
    (hmm : build_merge_map g s d = some mm) (i : ℕ)
    (hi : i < (g.strategies s).length)
    (hfeas : ∃ st ∈ g.strategies d, ∃ c, (st.resharding_costs s).get? i = some c ∧ c < ⊤) :
    ∃ j : ℕ, j < (g.strategies d).length ∧ mm.get? i = some ((j : ℕ) : ℤ) ∧
      ∃ stj cj, (g.strategies d).get? j = some stj ∧
        (stj.resharding_costs s).get? i = some cj ∧ cj < ⊤ ∧
        (∀ k stk ck, (g.strategies d).get? k = some stk →
          (stk.resharding_costs s).get? i = some ck → cj ≤ ck) ∧
        (∀ k, k < j → ∀ stk ck, (g.strategies d).get? k = some stk →
          (stk.resharding_costs s).get? i = some ck → cj < ck) := by
  rcases build_merge_map_get hmm with ⟨hlen, hget⟩
  rcases hget i hi with ⟨col, hcol, hmmi⟩
  rcases mapM_option_get _ _ _ hcol with ⟨hclen, hcget⟩
  have hfeas' : ∃ c ∈ col, c < ⊤ := by
    rcases hfeas with ⟨st, hst, c, hc, hlt⟩
    rcases List.get_of_mem hst with ⟨⟨k, hk⟩, hkst⟩
    have hkget : (g.strategies d).get? k = some st := by
      rw [List.get?_eq_get hk, hkst]
    rcases hcget k st hkget with ⟨b, hb, hcolk⟩
    have hbc : b = c := Option.some_inj.mp (hb.symm.trans hc)
    exact ⟨b, List.get?_mem hcolk, by rw [hbc]; exact hlt⟩
  rcases select_min_found col ⊤ (-1) 0 hfeas' with
    ⟨j, hj, hbest, cj, hcj, hlt, hle, hstrict⟩
  have hjd : j < (g.strategies d).length := by rw [← hclen]; exact hj
  rcases List.get?_eq_some.mp
    (show (g.strategies d).get? j = some ((g.strategies d).get ⟨j, hjd⟩) from
      List.get?_eq_get hjd) with _
  have hstj : (g.strategies d).get? j = some ((g.strategies d).get ⟨j, hjd⟩) :=
    List.get?_eq_get hjd
  rcases hcget j _ hstj with ⟨b, hb, hcolj⟩
  have hbcj : b = cj := Option.some_inj.mp (hcolj.symm.trans hcj)
  refine ⟨j, hjd, by rw [hmmi, hbest]; norm_num, (g.strategies d).get ⟨j, hjd⟩, cj,
    hstj, by rw [← hbcj]; exact hb, hlt, ?_, ?_⟩
  · intro k stk ck hstk hck
    rcases hcget k stk hstk with ⟨bk, hbk, hcolk⟩
    have hq : bk = ck := Option.some_inj.mp (hbk.symm.trans hck)
    rw [hq] at hcolk
    exact hle k ck hcolk
  · intro k hk stk ck hstk hck
    rcases hcget k stk hstk with ⟨bk, hbk, hcolk⟩
    have hq : bk = ck := Option.some_inj.mp (hbk.symm.trans hck)
    rw [hq] at hcolk
    exact hstrict k hk ck hcolk

/-- Witness for C4 on the chain graph: merging node `1` into node `2`,
src strategy row `1` has costs `[1, 6]`, so the merge map picks dst
strategy `0`. -/
theorem claim_C4_witness :
    ∃ mm, build_merge_map chainG0 1 2 = some mm ∧
      ∃ j : ℕ, j < (chainG0.strategies 2).length ∧ mm.get? 1 = some ((j : ℕ) : ℤ) := by
  have h0 : (build_merge_map chainG0 1 2).isSome = true := by decide
  refine ⟨(build_merge_map chainG0 1 2).get h0, (Option.some_get h0).symm, ?_⟩
  rcases claim_C4 chainG0 1 2 _ (Option.some_get h0).symm 1 (by decide)
    ⟨chainG0.strategies 2 |>.get ⟨0, by decide⟩, List.get_mem _ _ _, qc 1, by decide, by decide⟩
    with ⟨j, hj, hmmi, _⟩
  exact ⟨j, hj, hmmi⟩

/-! ## Lemmas: the extra-cost loop, claims C5 and C10 -/

theorem finalize_merge_extra (g : CostGraph) (s d : Node)
    (ex : List (Node × List Cost)) (st) :
    (finalize_merge g s d ex st).extra_node_costs = ex := by
  unfold finalize_merge
  split <;> rfl

theorem extra_step_at {g : CostGraph} {s d : Node} {mm : List ℤ}
    {ex1 ex : List (Node × List Cost)} {el1 : List Cost} {i : ℕ}
    (hsd : s ≠ d)
    (hel1 : dget ex1 s = some el1)
    (hd : dget ex1 d = dget g.extra_node_costs d)
    (h : extra_step g s d mm ex1 i = some ex) :
    ∃ t tgt base cur,
      mm.get? i = some t ∧ pyGet (g.strategies d) t = some tgt ∧
      (tgt.resharding_costs s).get? i = some base ∧
      el1.get? i = some cur ∧ i < el1.length ∧
      ((dget g.extra_node_costs d = none ∧
          ex = dset ex1 s (el1.set i (cur + base))) ∨
       (∃ dl ed, dget g.extra_node_costs d = some dl ∧ pyGet dl t = some ed ∧
          ex = dset (dset ex1 s (el1.set i (cur + base))) s
            ((el1.set i (cur + base)).set i (cur + base + ed)))) := by
  unfold extra_step at h
  rcases Option.bind_eq_some.mp h with ⟨t, ht, h⟩
  rcases Option.bind_eq_some.mp h with ⟨tgt, htgt, h⟩
  rcases Option.bind_eq_some.mp h with ⟨base, hbase, h⟩
  rcases Option.bind_eq_some.mp h with ⟨cur_list, hcl, h⟩
  have hcl' : el1 = cur_list := Option.some_inj.mp (hel1.symm.trans hcl)
  subst hcl'
  rcases Option.bind_eq_some.mp h with ⟨cur, hcur, h⟩
  rcases Option.bind_eq_some.mp h with ⟨l1, hl1, h⟩
  rcases pySet_eq_some hl1 with ⟨rfl, hilen⟩
  dsimp only at h
  have hdget2 : dget (dset ex1 s (el1.set i (cur + base))) d
      = dget g.extra_node_costs d := by
    rw [dget_dset_ne _ _ _ _ (Ne.symm hsd)]
    exact hd
  refine ⟨t, tgt, base, cur, ht, htgt, hbase, hcur, hilen, ?_⟩
  cases hcase : dget g.extra_node_costs d with
  | none =>
    rw [hdget2, hcase] at h
    dsimp only at h
    exact Or.inl ⟨rfl, (Option.some_inj.mp h).symm⟩
  | some dl =>
    rw [hdget2, hcase] at h
    dsimp only at h
    rcases Option.bind_eq_some.mp h with ⟨cl, hcl2, h⟩
    have hcl2' : el1.set i (cur + base) = cl :=
      Option.some_inj.mp ((dget_dset_self _ _ _).symm.trans hcl2)
    subst hcl2'
    rcases Option.bind_eq_some.mp h with ⟨cur2, hcur2, h⟩
    have hcur2' : cur + base = cur2 := by
      have hq : (el1.set i (cur + base)).get? i = some (cur + base) := by
        rw [List.get?_set_eq]
        rw [hcur]
        rfl
      exact Option.some_inj.mp (hq.symm.trans hcur2)
    subst hcur2'
    rcases Option.bind_eq_some.mp h with ⟨ed, hed, h⟩
    rcases Option.bind_eq_some.mp h with ⟨l2, hl2, h⟩
    rcases pySet_eq_some hl2 with ⟨rfl, _⟩
    exact Or.inr ⟨dl, ed, rfl, hed, (Option.some_inj.mp h).symm⟩

theorem extra_fold_spec (g : CostGraph) (s d : Node) (mm : List ℤ)
    (hsd : s ≠ d) :
    ∀ (L : ℕ) (ex : List (Node × List Cost)),
      (List.range L).foldlM (extra_step g s d mm)
        (dset g.extra_node_costs s
          (List.replicate (g.node_lens s) (0 : Cost))) = some ex →
      (∀ n, n ≠ s → dget ex n = dget g.extra_node_costs n) ∧
      ∃ el, dget ex s = some el ∧ el.length = g.node_lens s ∧
        (∀ i, L ≤ i →
          el.get? i = (List.replicate (g.node_lens s) (0 : Cost)).get? i) ∧
        ∀ i, i < L →
          ∃ t tgt base, mm.get? i = some t ∧
            pyGet (g.strategies d) t = some tgt ∧
            (tgt.resharding_costs s).get? i = some base ∧
            ((dget g.extra_node_costs d = none ∧ el.get? i = some (0 + base)) ∨
             (∃ dl ed, dget g.extra_node_costs d = some dl ∧
                pyGet dl t = some ed ∧ el.get? i = some (0 + base + ed))) := by
  intro L
  induction L with
  | zero =>
    intro ex h
    rw [List.range_zero, List.foldlM_nil] at h
    cases Option.some_inj.mp h
    refine ⟨fun n hn => dget_dset_ne _ _ _ _ hn, _, dget_dset_self _ _ _,
      List.length_replicate _ _, fun i _ => rfl, fun i hi => absurd hi (Nat.not_lt_zero i)⟩
  | succ L ih =>
    intro ex h
    rw [List.range_succ, List.foldlM_append] at h
    rcases Option.bind_eq_some.mp h with ⟨ex1, hex1, h⟩
    rw [List.foldlM_cons] at h
    rcases Option.bind_eq_some.mp h with ⟨ex2, hstep, h⟩
    rw [List.foldlM_nil] at h
    cases Option.some_inj.mp h
    rcases ih ex1 hex1 with ⟨hother, el1, hel1, hlen1, hrep1, hval1⟩
    have hd1 : dget ex1 d = dget g.extra_node_costs d := hother d (Ne.symm hsd)
    rcases extra_step_at hsd hel1 hd1 hstep with
      ⟨t, tgt, base, cur, ht, htgt, hbase, hcur, hiL, hcase⟩
    have hcur0 : cur = 0 := by
      have := hrep1 L (le_refl L)
      rw [hcur] at this
      have hLN : L < g.node_lens s := by rw [← hlen1]; exact hiL
      rw [List.get?_eq_get (by simpa using hLN)] at this
      simp at this
      exact this
    subst hcur0
    rcases hcase with ⟨hnone, rfl⟩ | ⟨dl, ed, hsome, hed, rfl⟩
    · refine ⟨?_, el1.set L (0 + base), dget_dset_self _ _ _, by simp [hlen1], ?_, ?_⟩
      · intro n hn
        rw [dget_dset_ne _ _ _ _ hn]
        exact hother n hn
      · intro i hi
        rw [List.get?_set_ne _ _ (by omega)]
        exact hrep1 i (by omega)
      · intro i hi
        rcases Nat.lt_succ_iff_lt_or_eq.mp hi with hiL' | rfl
        · rcases hval1 i hiL' with ⟨t', tgt', base', ht', htgt', hbase', hv⟩
          refine ⟨t', tgt', base', ht', htgt', hbase', ?_⟩
          rw [List.get?_set_ne _ _ (by omega)]
          exact hv
        · refine ⟨t, tgt, base, ht, htgt, hbase, Or.inl ⟨hnone, ?_⟩⟩
          rw [List.get?_set_eq]
          rw [hcur]
          rfl
    · refine ⟨?_, (el1.set L (0 + base)).set L (0 + base + ed),
        dget_dset_self _ _ _, by simp [hlen1], ?_, ?_⟩
      · intro n hn
        rw [dget_dset_ne _ _ _ _ hn, dget_dset_ne _ _ _ _ hn]
        exact hother n hn
      · intro i hi
        rw [List.get?_set_ne _ _ (by omega), List.get?_set_ne _ _ (by omega)]
        exact hrep1 i (by omega)
      · intro i hi
        rcases Nat.lt_succ_iff_lt_or_eq.mp hi with hiL' | rfl
        · rcases hval1 i hiL' with ⟨t', tgt', base', ht', htgt', hbase', hv⟩
          refine ⟨t', tgt', base', ht', htgt', hbase', ?_⟩
          rw [List.get?_set_ne _ _ (by omega), List.get?_set_ne _ _ (by omega)]
          exact hv
        · refine ⟨t, tgt, base, ht, htgt, hbase, Or.inr ⟨dl, ed, hsome, hed, ?_⟩⟩
          rw [List.get?_set_eq]
          rw [List.get?_set_eq]
          rw [hcur]
          rfl

/-- Summary of the extra-cost accrual phase. -/
theorem extra_phase_spec {g : CostGraph} {s d : Node} {mm : List ℤ}
    {ex : List (Node × List Cost)} (hsd : s ≠ d)
    (h : extra_phase g s d mm = some ex) :
    (∀ n, n ≠ s → dget ex n = dget g.extra_node_costs n) ∧
    ∃ el, dget ex s = some el ∧ el.length = g.node_lens s ∧
      (∀ i, (g.strategies s).length ≤ i →
        el.get? i = (List.replicate (g.node_lens s) (0 : Cost)).get? i) ∧
      ∀ i, i < (g.strategies s).length →
        ∃ t tgt base, mm.get? i = some t ∧
          pyGet (g.strategies d) t = some tgt ∧
          (tgt.resharding_costs s).get? i = some base ∧
          ((dget g.extra_node_costs d = none ∧ el.get? i = some (0 + base)) ∨
           (∃ dl ed, dget g.extra_node_costs d = some dl ∧
              pyGet dl t = some ed ∧ el.get? i = some (0 + base + ed))) :=
  extra_fold_spec g s d mm hsd _ ex h

/-- C5: after `merge_node(src, dst)`, the extra cost recorded for `src` at
strategy `i` is the resharding cost of `src_i` against the merge-map target
`dst` strategy, plus — exactly when `dst` already had accrued extra costs —
`dst`'s pre-existing extra cost at the target strategy. -/
theorem claim_C5 (g : CostGraph) (s d : Node) (g' : CostGraph)
    (h : merge_node g s d = some g') (hsd : s ≠ d)
    (mm : List ℤ) (hmm : build_merge_map g s d = some mm)
    (i j : ℕ) (hj : mm.get? i = some ((j : ℕ) : ℤ)) :
    ∃ el stj base, dget g'.extra_node_costs s = some el ∧
      (g.strategies d).get? j = some stj ∧
      (stj.resharding_costs s).get? i = some base ∧
      ((dget g.extra_node_costs d = none ∧ el.get? i = some base) ∨
       (∃ dl ed, dget g.extra_node_costs d = some dl ∧ dl.get? j = some ed ∧
         el.get? i = some (base + ed))) := by
  rcases merge_node_parts h with ⟨dp0, mm', ex, ec1, hdp0, hmm', hex, hec1, hrw⟩
  have hmmeq : mm = mm' := Option.some_inj.mp (hmm.symm.trans hmm')
  subst hmmeq
  rcases rewire_phase_parts hrw with ⟨dparents, schildren, ec2, st, _, _, _, _, hg'⟩
  have hgex : g'.extra_node_costs = ex := by
    rw [hg', finalize_merge_extra]
  have hi : i < (g.strategies s).length := by
    have hlt : i < mm.length := by
      rcases List.get?_eq_some.mp hj with ⟨hq, _⟩
      exact hq
    rw [(build_merge_map_get hmm).1] at hlt
    exact hlt
  rcases (extra_phase_spec hsd hex).2 with ⟨el, hel, hlen, hrep, hval⟩
  rcases hval i hi with ⟨t, tgt, base, ht, htgt, hbase, hcase⟩
  have hteq : t = ((j : ℕ) : ℤ) := Option.some_inj.mp (ht.symm.trans hj)
  subst hteq
  have htoNat : ((j : ℕ) : ℤ).toNat = j := Int.toNat_natCast j
  rw [pyGet_nonneg _ _ (Int.natCast_nonneg j), htoNat] at htgt
  refine ⟨el, tgt, base, by rw [hgex]; exact hel, htgt, hbase, ?_⟩
  rcases hcase with ⟨hnone, hv⟩ | ⟨dl, ed, hsome, hed, hv⟩
  · rw [zero_add] at hv
    exact Or.inl ⟨hnone, hv⟩
  · rw [pyGet_nonneg _ _ (Int.natCast_nonneg j), htoNat] at hed
    rw [zero_add] at hv
    exact Or.inr ⟨dl, ed, hsome, hed, hv⟩

/-- Witness for C5 on the chain: the second merge (node `1` into node `0`)
propagates the extra cost that node `1` accrued in the first merge. -/
theorem claim_C5_witness :
    ∃ mm, build_merge_map chainM1 0 1 = some mm ∧
      mm.get? 0 = some ((0 : ℕ) : ℤ) ∧
      ∃ el stj base, dget chainM2.extra_node_costs 0 = some el ∧
        (chainM1.strategies 1).get? 0 = some stj ∧
        (stj.resharding_costs 0).get? 0 = some base ∧
        ((dget chainM1.extra_node_costs 1 = none ∧ el.get? 0 = some base) ∨
         (∃ dl ed, dget chainM1.extra_node_costs 1 = some dl ∧
            dl.get? 0 = some ed ∧ el.get? 0 = some (base + ed))) := by
  refine ⟨chainMM, (Option.some_get (by decide)).symm, by decide, ?_⟩
  exact claim_C5 chainM1 0 1 chainM2 (Option.some_get (by decide)).symm
    (by decide) chainMM (Option.some_get (by decide)).symm 0 0 (by decide)

/-- C10: when every resharding cost of src strategy `i` against the dst
strategies is the infeasible `math.inf`, the merge map records `-1` for
`i`; the extra-cost step then reads the dst strategy at Python index `-1`,
i.e. the last strategy, instead of raising a dedicated precondition error;
and in general `merge_map[i]` is a valid dst index exactly when row `i` has
an entry strictly below `math.inf`. -/
theorem claim_C10 (g : CostGraph) (s d : Node) (mm : List ℤ)
    (hmm : build_merge_map g s d = some mm) (i : ℕ)
    (hi : i < (g.strategies s).length) :
    ((∀ st ∈ g.strategies d, (st.resharding_costs s).get? i = some ⊤) →
      mm.get? i = some (-1) ∧
      (∀ ex, s ≠ d → extra_phase g s d mm = some ex →
        ∃ el tgt base, dget ex s = some el ∧
          pyGet (g.strategies d) (-1) = some tgt ∧
          (g.strategies d).get? ((g.strategies d).length - 1) = some tgt ∧
          (tgt.resharding_costs s).get? i = some base)) ∧
    ((∃ j : ℕ, mm.get? i = some ((j : ℕ) : ℤ) ∧ j < (g.strategies d).length) ↔
      (∃ st ∈ g.strategies d, ∃ c,
        (st.resharding_costs s).get? i = some c ∧ c < ⊤)) := by
  rcases build_merge_map_get hmm with ⟨hlen, hget⟩
  rcases hget i hi with ⟨col, hcol, hmmi⟩
  rcases mapM_option_get _ _ _ hcol with ⟨hclen, hcget⟩
  have hall : (∀ st ∈ g.strategies d, (st.resharding_costs s).get? i = some ⊤) →
      mm.get? i = some (-1) := by
    intro htop
    have hcoltop : ∀ c ∈ col, ¬ c < ⊤ := by
      intro c hc
      rcases List.get_of_mem hc with ⟨⟨k, hk⟩, hkc⟩
      have hkd : k < (g.strategies d).length := by rw [← hclen]; exact hk
      have hst : (g.strategies d).get? k = some ((g.strategies d).get ⟨k, hkd⟩) :=
        List.get?_eq_get hkd
      rcases hcget k _ hst with ⟨b, hb, hcolk⟩
      have hb' : b = ⊤ := by
        have hq := htop ((g.strategies d).get ⟨k, hkd⟩)
          (List.get_mem (g.strategies d) k hkd)
        exact Option.some_inj.mp (hb.symm.trans hq)
      have hcb : c = b := by
        have : col.get? k = some c := by rw [List.get?_eq_get hk, hkc]
        exact Option.some_inj.mp (this.symm.trans hcolk)
      rw [hcb, hb']
      exact lt_irrefl ⊤
    rw [select_min_none col 0 hcoltop] at hmmi
    simpa using hmmi
  constructor
  · intro htop
    refine ⟨hall htop, ?_⟩
    intro ex hsd hex
    rcases (extra_phase_spec hsd hex).2 with ⟨el, hel, _, _, hval⟩
    rcases hval i hi with ⟨t, tgt, base, ht, htgt, hbase, _⟩
    have hteq : t = -1 := Option.some_inj.mp (ht.symm.trans (hall htop))
    subst hteq
    have hne : g.strategies d ≠ [] := by
      intro hq
      rw [hq] at htgt
      exact Option.noConfusion htgt
    refine ⟨el, tgt, base, hel, htgt, ?_, hbase⟩
    rw [← pyGet_neg_one _ hne]
    exact htgt
  · constructor
    · rintro ⟨j, hjmm, hjd⟩
      by_contra hno
      push_neg at hno
      have htop : ∀ st ∈ g.strategies d, (st.resharding_costs s).get? i = some ⊤ := by
        intro st hst
        rcases List.get_of_mem hst with ⟨⟨k, hk⟩, hkst⟩
        have hstk : (g.strategies d).get? k = some st := by
          rw [List.get?_eq_get hk, hkst]
        rcases hcget k st hstk with ⟨b, hb, _⟩
        have hble : (⊤ : Cost) ≤ b := hno st hst b hb
        have hbt : b = ⊤ := le_antisymm le_top hble
        rw [hbt] at hb
        exact hb
      have := hall htop
      rw [hjmm] at this
      have : ((j : ℕ) : ℤ) = -1 := Option.some_inj.mp this
      omega
    · rintro ⟨st, hst, c, hc, hlt⟩
      have hfeas : ∃ c ∈ col, c < ⊤ := by
        rcases List.get_of_mem hst with ⟨⟨k, hk⟩, hkst⟩
        have hstk : (g.strategies d).get? k = some st := by
          rw [List.get?_eq_get hk, hkst]
        rcases hcget k st hstk with ⟨b, hb, hcolk⟩
        have hbc : b = c := Option.some_inj.mp (hb.symm.trans hc)
        exact ⟨b, List.get?_mem hcolk, by rw [hbc]; exact hlt⟩
      rcases select_min_found col ⊤ (-1) 0 hfeas with ⟨j, hj, hbest, _⟩
      refine ⟨j, ?_, by rw [← hclen]; exact hj⟩
      rw [hmmi, hbest]
      norm_num

/-- Witness for C10 on the infeasible-row graph: the single cost row is all
`math.inf`, the merge map records `-1`, and the extra-cost phase reads the
last dst strategy. -/
theorem claim_C10_witness :
    ∃ mm, build_merge_map topG0 0 1 = some mm ∧
      mm.get? 0 = some (-1) ∧
      ∃ ex, extra_phase topG0 0 1 mm = some ex ∧
      ∃ el tgt base, dget ex 0 = some el ∧
        pyGet (topG0.strategies 1) (-1) = some tgt ∧
        (topG0.strategies 1).get? ((topG0.strategies 1).length - 1) = some tgt ∧
        (tgt.resharding_costs 0).get? 0 = some base := by
  refine ⟨topMM, (Option.some_get (by decide)).symm, by decide, ?_⟩
  have htop : ∀ st ∈ topG0.strategies 1,
      (st.resharding_costs 0).get? 0 = some ⊤ := by
    intro st hst
    have hq : topG0.strategies 1 = [topStrat] := rfl
    rw [hq] at hst
    rcases List.mem_singleton.mp hst with rfl
    rfl
  refine ⟨topEX, (Option.some_get (by decide)).symm, ?_⟩
  exact ((claim_C10 topG0 0 1 topMM (Option.some_get (by decide)).symm 0
    (by decide)).1 htop).2 topEX (by decide) (Option.some_get (by decide)).symm

/-! ## Lemmas: ledger resolution, claim C7 -/

theorem dget_eq_none_of_not_key {α β : Type} [DecidableEq α]
    {l : List (α × β)} {a : α} (h : a ∉ l.map Prod.fst) : dget l a = none := by
  cases hq : dget l a with
  | none => rfl
  | some b =>
    exact absurd (List.mem_map_of_mem Prod.fst (dget_mem hq)) h

theorem reindexing_src_terminal (d : List (Node × Node)) (r : Node → ℕ)
    (hr : ∀ p ∈ d, r p.2 < r p.1) :
    ∀ (fuel : ℕ) (n : Node), r n < fuel →
      dget d (reindexing_src d fuel n) = none ∧
        Resolves d n (reindexing_src d fuel n) := by
  intro fuel
  induction fuel with
  | zero => intro n hn; exact absurd hn (Nat.not_lt_zero _)
  | succ f ih =>
    intro n hn
    rw [reindexing_src]
    cases hq : dget d n with
    | none => exact ⟨hq, Resolves.terminal hq⟩
    | some m =>
      have hm : r m < f := by
        have h1 : r m < r n := hr (n, m) (dget_mem hq)
        omega
      rcases ih m hm with ⟨ht, hres⟩
      exact ⟨ht, Resolves.step hq hres⟩

theorem foldl_dset_get (f : Node → Node) :
    ∀ (l : List (Node × Node)) (acc : List (Node × Node)) (k : Node),
      (l.map Prod.fst).Nodup → (∀ p ∈ l, dmem acc p.1 = false) →
      dget (l.foldl (fun nd p => dset nd p.1 (f p.2)) acc) k
        = match dget l k with
          | some v => some (f v)
          | none => dget acc k := by
  intro l
  induction l with
  | nil => intro acc k _ _; rfl
  | cons p rest ih =>
    intro acc k hnd hfresh
    rcases List.nodup_cons.mp hnd with ⟨hp, hrest⟩
    have hfresh' : ∀ q ∈ rest, dmem (dset acc p.1 (f p.2)) q.1 = false := by
      intro q hq
      have hq1 : q.1 ≠ p.1 := by
        intro he
        exact hp (he ▸ List.mem_map_of_mem Prod.fst hq)
      rw [dmem, dget_dset_ne _ _ _ _ hq1]
      exact hfresh q (List.mem_cons_of_mem _ hq)
    rw [List.foldl_cons, ih (dset acc p.1 (f p.2)) k hrest hfresh']
    by_cases hk : k = p.1
    · have hnone : dget rest k = none := by
        apply dget_eq_none_of_not_key
        rw [hk]
        exact hp
      rw [hnone]
      have hsome : dget (p :: rest) k = some p.2 := by
        rw [dget, if_pos hk.symm]
      rw [hsome, hk, dget_dset_self]
    · have hq : dget (p :: rest) k = dget rest k := by
        rw [dget, if_neg (fun hq => hk hq.symm)]
      rw [hq, dget_dset_ne _ _ _ _ hk]

theorem reindexPhase_get (d : List (Node × Node))
    (hnd : (d.map Prod.fst).Nodup) (k : Node) :
    dget (reindexPhase d) k
      = (dget d k).map (reindexing_src d (d.length + 1)) := by
  unfold reindexPhase
  rw [foldl_dset_get (reindexing_src d (d.length + 1)) d [] k hnd
    (fun p _ => rfl)]
  cases dget d k <;> rfl

/-- C7: after `simplify_graph` on an acyclic absorbed-into relation, every
ledger entry points directly to the terminal node reached by transitively
following the pre-compression records; that terminal has no ledger entry of
its own, and in particular no absorbed node maps to another absorbed
node. -/
theorem claim_C7 (g g1 g' : CostGraph)
    (hm : merge_phase g = some g1) (hsimp : g.simplify = true)
    (h : simplify_graph g = some g')
    (hnd : (g1.following_dict.map Prod.fst).Nodup)
    (hacyc : AcyclicLedger g1.following_dict) :
    g'.following_dict = reindexPhase g1.following_dict ∧
    (∀ k, dmem g'.following_dict k = dmem g1.following_dict k) ∧
    ∀ k v, dget g1.following_dict k = some v →
      ∃ t, dget g'.following_dict k = some t ∧
        Resolves g1.following_dict v t ∧ Resolves g1.following_dict k t ∧
        dget g1.following_dict t = none ∧ dget g'.following_dict t = none := by
  unfold simplify_graph at h
  rw [if_neg (by rw [hsimp]; intro hq; exact Bool.noConfusion hq)] at h
  rcases Option.bind_eq_some.mp h with ⟨g1', hg1', h⟩
  have hg1eq : g1 = g1' := Option.some_inj.mp (hm.symm.trans hg1')
  subst hg1eq
  dsimp only at h
  have hrec := Option.some_inj.mp h
  have hfd : g'.following_dict = reindexPhase g1.following_dict := by
    rw [← hrec]
  refine ⟨hfd, ?_, ?_⟩
  · intro k
    rw [dmem, dmem, hfd, reindexPhase_get g1.following_dict hnd k]
    cases dget g1.following_dict k <;> rfl
  · intro k v hkv
    rcases hacyc with ⟨r, hr, hbound⟩
    have hvbound : r v < g1.following_dict.length + 1 := by
      have h1 : r v < r k := hr (k, v) (dget_mem hkv)
      have h2 : r k ≤ g1.following_dict.length := hbound (k, v) (dget_mem hkv)
      omega
    rcases reindexing_src_terminal g1.following_dict r hr
      (g1.following_dict.length + 1) v hvbound with ⟨hterm, hres⟩
    refine ⟨reindexing_src g1.following_dict (g1.following_dict.length + 1) v,
      ?_, hres, Resolves.step hkv hres, hterm, ?_⟩
    · rw [hfd, reindexPhase_get g1.following_dict hnd k, hkv]
      rfl
    · rw [hfd, reindexPhase_get g1.following_dict hnd _, hterm]
      rfl

/-- Witness for C7 on the chain graph: the two merges record `2 ↦ 1` and
`1 ↦ 0`, and compression maps `2` directly to the live node `0`. -/
theorem claim_C7_witness :
    merge_phase chainG0 = some chainP1 ∧
      simplify_graph chainG0 = some chainG1 ∧
      ∃ t, dget chainG1.following_dict 2 = some t ∧
        Resolves chainP1.following_dict 1 t ∧
        Resolves chainP1.following_dict 2 t ∧
        dget chainP1.following_dict t = none ∧
        dget chainG1.following_dict t = none := by
  have hm : merge_phase chainG0 = some chainP1 := (Option.some_get (by decide)).symm
  have hs : simplify_graph chainG0 = some chainG1 := (Option.some_get (by decide)).symm
  refine ⟨hm, hs, ?_⟩
  exact (claim_C7 chainG0 chainP1 chainG1 hm (by decide) hs (by decide)
    ⟨fun n => n, by decide, by decide⟩).2.2 2 1 (by decide)

/-! ## Claim C2: the multi-path accumulation branch is dead code -/

/-- C2 (code bug): in the diamond `0 → 1`, `0 → 2`, `1 → 2`, merging node
`1` into node `0` finds the pre-existing edge `(0, 2)` and hits `continue`
(line 109 of the source), so the accumulation branch of lines 118-122 never
runs: the stored `(0, 2)` entry stays at its old value `7` instead of
becoming `7 + 1` (old value plus the value derived from edge `(1, 2)` at
the merge-map target), contradicting the source's own comment that the
resharding costs "should accumulate". -/
theorem claim_C2 :
    merge_node diamondG0 0 1 = some diamondM ∧
    (build_merge_map diamondG0 0 1).map (fun mm => mm.get? 0)
      = some (some 0) ∧
    (get_edge_cost diamondG0 0 2).map (fun m => m (0, 0))
      = some (some (qc 7)) ∧
    (get_edge_cost diamondG0 1 2).map (fun m => m (0, 0))
      = some (some (qc 1)) ∧
    (get_edge_cost diamondM 0 2).map (fun m => m (0, 0))
      = some (some (qc 7)) ∧
    (qc 7 : Cost) ≠ qc 7 + qc 1 :=
  ⟨(Option.some_get (by decide)).symm, by decide, by decide, by decide,
    by decide, by decide⟩

/-! ## Claim C3: extra costs are keyed by the surviving node -/

/-- Counterexample to C3 as stated: after fully simplifying the chain, the
extra-node-cost table has an entry for node `0`, yet node `0` is a node of
the graph that is absent from the absorption ledger — it is still live. -/
theorem claim_C3_counterexample :
    simplify_graph chainG0 = some chainG1 ∧
    dmem chainG1.extra_node_costs 0 = true ∧
    0 ∈ chainG1.leaf_strategies.map StrategiesVector.node ∧
    dmem chainG1.following_dict 0 = false :=
  ⟨(Option.some_get (by decide)).symm, by decide, by decide, by decide⟩

theorem extra_step_keys {g : CostGraph} {s d : Node} {mm : List ℤ}
    {ex1 ex : List (Node × List Cost)} {i : ℕ}
    (h : extra_step g s d mm ex1 i = some ex) :
    ∀ n, dmem ex n = true → dmem ex1 n = true ∨ n = s := by
  unfold extra_step at h
  rcases Option.bind_eq_some.mp h with ⟨t, _, h⟩
  rcases Option.bind_eq_some.mp h with ⟨tgt, _, h⟩
  rcases Option.bind_eq_some.mp h with ⟨base, _, h⟩
  rcases Option.bind_eq_some.mp h with ⟨cur_list, _, h⟩
  rcases Option.bind_eq_some.mp h with ⟨cur, _, h⟩
  rcases Option.bind_eq_some.mp h with ⟨l1, _, h⟩
  dsimp only at h
  intro n hn
  by_cases hns : n = s
  · exact Or.inr hns
  · left
    cases hq : dget (dset ex1 s l1) d with
    | none =>
      rw [hq] at h
      dsimp only at h
      cases Option.some_inj.mp h
      rcases (dmem_dset _ _ _ _).mp hn with hq2 | hq2
      · exact absurd hq2 hns
      · exact hq2
    | some dl =>
      rw [hq] at h
      dsimp only at h
      rcases Option.bind_eq_some.mp h with ⟨cl, _, h⟩
      rcases Option.bind_eq_some.mp h with ⟨cur2, _, h⟩
      rcases Option.bind_eq_some.mp h with ⟨ed, _, h⟩
      rcases Option.bind_eq_some.mp h with ⟨l2, _, h⟩
      cases Option.some_inj.mp h
      rcases (dmem_dset _ _ _ _).mp hn with hq2 | hq2
      · exact absurd hq2 hns
      rcases (dmem_dset _ _ _ _).mp hq2 with hq3 | hq3
      · exact absurd hq3 hns
      · exact hq3

theorem merge_node_extra_keys {g : CostGraph} {s d : Node} {g' : CostGraph}
    (h : merge_node g s d = some g') :
    ∀ n, dmem g'.extra_node_costs n = true →
      dmem g.extra_node_costs n = true ∨ n = s := by
  rcases merge_node_parts h with ⟨dp0, mm, ex, ec1, _, _, hex, _, hrw⟩
  rcases rewire_phase_parts hrw with ⟨_, _, _, st, _, _, _, _, hg'⟩
  have hgex : g'.extra_node_costs = ex := by rw [hg', finalize_merge_extra]
  rw [hgex]
  unfold extra_phase at hex
  exact foldlM_option_inv
    (P := fun ex' => ∀ n, dmem ex' n = true →
      dmem g.extra_node_costs n = true ∨ n = s)
    _ _ _ hex
    (fun i e1 e2 _ hstep hp n hn => by
      rcases extra_step_keys hstep n hn with hq | hq
      · exact hp n hq
      · exact Or.inr hq)
    (fun n hn => by
      rcases (dmem_dset _ _ _ _).mp hn with hq | hq
      · exact Or.inr hq
      · exact Or.inl hq)

/-- C3 amended: after `simplify_graph`, the extra-node-cost table has an
entry for a node only if it already had one before, or the node appears as
the surviving (absorbing) side of some queued merge pair — the table is
keyed by the merge's `src_node`, which stays in the live graph, not by the
absorbed node. -/
theorem claim_C3 (g g' : CostGraph) (h : simplify_graph g = some g') :
    ∀ n, dmem g'.extra_node_costs n = true →
      dmem g.extra_node_costs n = true ∨ ∃ p ∈ g.merge_pair, p.1 = n := by
  unfold simplify_graph at h
  by_cases hs : g.simplify = false
  · rw [if_pos hs] at h
    cases Option.some_inj.mp h
    exact fun n hn => Or.inl hn
  · rw [if_neg hs] at h
    rcases Option.bind_eq_some.mp h with ⟨g1, hg1, h⟩
    dsimp only at h
    have hrec := Option.some_inj.mp h
    have hgex : g'.extra_node_costs = g1.extra_node_costs := by rw [← hrec]
    unfold merge_phase at hg1
    intro n hn
    rw [hgex] at hn
    have := foldlM_option_inv
      (P := fun g2 => dmem g2.extra_node_costs n = true →
        dmem g.extra_node_costs n = true ∨ ∃ p ∈ g.merge_pair.reverse, p.1 = n)
      _ _ _ hg1
      (fun p s1 s2 hpmem hstep hp hn2 => by
        rcases merge_node_extra_keys hstep n hn2 with hq | hq
        · exact hp hq
        · exact Or.inr ⟨p, hpmem, hq.symm⟩)
      (fun hn2 => Or.inl hn2)
    rcases this hn with hq | ⟨p, hpmem, hpq⟩
    · exact Or.inl hq
    · exact Or.inr ⟨p, List.mem_reverse.mp hpmem, hpq⟩

/-- Witness for C3 (amended) on the chain graph: node `0` carries an extra
cost and is the `src` of the queued pair `(0, 1)`. -/
theorem claim_C3_witness :
    simplify_graph chainG0 = some chainG1 ∧
      dmem chainG1.extra_node_costs 0 = true ∧
      (dmem chainG0.extra_node_costs 0 = true ∨
        ∃ p ∈ chainG0.merge_pair, p.1 = 0) := by
  have hs : simplify_graph chainG0 = some chainG1 := (Option.some_get (by decide)).symm
  exact ⟨hs, by decide, claim_C3 chainG0 chainG1 hs 0 (by decide)⟩


/-! ## Lemmas: sum bookkeeping over association lists (towards claim C1) -/

theorem dmem_append {α β : Type} [DecidableEq α] (l1 l2 : List (α × β)) (a : α) :
    dmem (l1 ++ l2) a = (dmem l1 a || dmem l2 a) := by
  rw [dmem, dmem, dmem, dget_append]
  cases dget l1 a <;> rfl

theorem dget_none_not_key {α β : Type} [DecidableEq α] {l : List (α × β)} {a : α}
    (h : dget l a = none) : a ∉ l.map Prod.fst := by
  induction l with
  | nil => simp
  | cons p rest ih =>
    rw [dget] at h
    by_cases hp : p.1 = a
    · rw [if_pos hp] at h
      exact Option.noConfusion h
    · rw [if_neg hp] at h
      simp only [List.map_cons, List.mem_cons]
      rintro (hq | hq)
      · exact hp hq.symm
      · exact ih h hq

theorem dget_of_dmem_false {α β : Type} [DecidableEq α] {l : List (α × β)} {a : α}
    (h : dmem l a = false) : dget l a = none := by
  cases hq : dget l a with
  | none => rfl
  | some b =>
    rw [dmem, hq] at h
    exact Bool.noConfusion h

theorem keys_ne_of_dmem_false {α β : Type} [DecidableEq α] (l : List (α × β))
    (a : α) (h : dmem l a = false) : ∀ p ∈ l, p.1 ≠ a := by
  intro p hp hq
  exact dget_none_not_key (dget_of_dmem_false h) (hq ▸ List.mem_map_of_mem Prod.fst hp)

theorem map_overwrite_id {α β : Type} [DecidableEq α] (l : List (α × β))
    (a : α) (w : β) (h : ∀ p ∈ l, p.1 ≠ a) :
    l.map (fun p => if p.1 = a then (a, w) else p) = l := by
  induction l with
  | nil => rfl
  | cons p rest ih =>
    rw [List.map_cons, if_neg (h p (List.mem_cons_self _ _)),
      ih (fun q hq => h q (List.mem_cons_of_mem _ hq))]

theorem dset_fresh {α β : Type} [DecidableEq α] (l : List (α × β)) (a : α) (b : β)
    (h : dmem l a = false) : dset l a b = l ++ [(a, b)] := by
  unfold dset
  rw [if_neg (by rw [h]; exact Bool.false_ne_true)]

theorem dset_append_overwrite {α β : Type} [DecidableEq α] (l : List (α × β))
    (a : α) (v w : β) (h : dmem l a = false) :
    dset (l ++ [(a, v)]) a w = l ++ [(a, w)] := by
  have hmem : dmem (l ++ [(a, v)]) a = true := by
    rw [dmem_append]
    simp [dmem, dget]
  unfold dset
  rw [if_pos hmem, List.map_append, map_overwrite_id l a w
    (keys_ne_of_dmem_false l a h)]
  simp

theorem dget_filter_keyfun {α β : Type} [DecidableEq α] (q : α → Bool)
    (l : List (α × β)) (a : α) :
    dget (l.filter (fun p => q p.1)) a = if q a then dget l a else none := by
  induction l with
  | nil => cases q a <;> simp [dget]
  | cons p rest ih =>
    by_cases hq : q p.1
    · rw [List.filter_cons_of_pos (by simpa using hq)]
      by_cases hpa : p.1 = a
      · rw [dget, if_pos hpa, dget, if_pos hpa, ← hpa, if_pos hq]
      · rw [dget, if_neg hpa, dget, if_neg hpa, ih]
    · rw [List.filter_cons_of_neg (by simpa using hq)]
      by_cases hpa : p.1 = a
      · rw [ih, dget, if_pos hpa, ← hpa, if_neg hq]
        rw [← hpa] at *
        rw [if_neg hq]
      · rw [dget, if_neg hpa, ih]

theorem filter_key_noop {α β : Type} [DecidableEq α] (l : List (α × β)) (k : α)
    (h : ∀ p ∈ l, p.1 ≠ k) : l.filter (fun p => ¬ p.1 = k) = l := by
  rw [List.filter_eq_self]
  intro p hp
  simpa using h p hp

/-- Removing the unique entry of key `k` splits the entry-wise sum. -/
theorem sum_dget_split {α β : Type} [DecidableEq α] (F : α × β → Cost) :
    ∀ (l : List (α × β)) (k : α) (m : β), (l.map Prod.fst).Nodup →
      dget l k = some m →
      (l.map F).sum = ((l.filter (fun p => ¬ p.1 = k)).map F).sum + F (k, m) := by
  intro l
  induction l with
  | nil => intro k m _ h; exact Option.noConfusion h
  | cons p rest ih =>
    intro k m hnd hget
    rw [List.map_cons] at hnd
    rcases List.nodup_cons.mp hnd with ⟨hp, hrest⟩
    by_cases hpk : p.1 = k
    · rw [dget, if_pos hpk] at hget
      cases Option.some_inj.mp hget
      rw [List.filter_cons_of_neg (by simpa using hpk)]
      rw [filter_key_noop rest k (fun q hq hqk => hp (by
        rw [← hpk] at hqk
        exact hqk ▸ List.mem_map_of_mem Prod.fst hq))]
      have hpkm : (k, p.2) = p := by
        cases p
        simp only [Prod.mk.injEq]
        exact ⟨hpk.symm, trivial⟩
      rw [hpkm, List.map_cons, List.sum_cons, add_comm]
    · rw [dget, if_neg hpk] at hget
      rw [List.filter_cons_of_pos (by simpa using hpk), List.map_cons,
        List.sum_cons, List.map_cons, List.sum_cons,
        ih k m hrest hget, add_assoc]

theorem edge_total_append (l1 l2 : List ((Node × Node) × Mat)) (f : Node → ℕ) :
    edge_total (l1 ++ l2) f = edge_total l1 f + edge_total l2 f := by
  unfold edge_total
  rw [List.map_append, List.sum_append]

theorem derive_row_spec (mm : List ℤ) (old : Mat) (i : ℕ) :
    ∀ (J : ℕ) (m0 m' : Mat),
      (List.range J).foldlM (fun m2 j => do
        let dst_strate_index ← mm.get? i
        let c ← old (dst_strate_index, (j : ℤ))
        pure (mset m2 ((i : ℤ), (j : ℤ)) c)) m0 = some m' →
      (∀ a b, a ≠ (i : ℤ) → m' (a, b) = m0 (a, b)) ∧
      (∀ j : ℕ, j < J → ∃ t v, mm.get? i = some t ∧ old (t, (j : ℤ)) = some v ∧
        m' ((i : ℤ), (j : ℤ)) = some v) := by
  intro J
  induction J with
  | zero =>
    intro m0 m' h
    rw [List.range_zero, List.foldlM_nil] at h
    cases Option.some_inj.mp h
    exact ⟨fun a b _ => rfl, fun j hj => absurd hj (Nat.not_lt_zero j)⟩
  | succ J ih =>
    intro m0 m' h
    rw [List.range_succ, List.foldlM_append] at h
    rcases Option.bind_eq_some.mp h with ⟨m1, hm1, h⟩
    rw [List.foldlM_cons] at h
    rcases Option.bind_eq_some.mp h with ⟨m2, hstep, h⟩
    rw [List.foldlM_nil] at h
    cases Option.some_inj.mp h
    rcases Option.bind_eq_some.mp hstep with ⟨t, ht, hstep⟩
    rcases Option.bind_eq_some.mp hstep with ⟨v, hv, hstep⟩
    cases Option.some_inj.mp hstep
    rcases ih m0 m1 hm1 with ⟨hpres, hvals⟩
    refine ⟨?_, ?_⟩
    · intro a b ha
      unfold mset
      rw [if_neg (by
        intro hq
        injection hq with h1 _
        exact ha h1)]
      exact hpres a b ha
    · intro j hj
      rcases Nat.lt_succ_iff_lt_or_eq.mp hj with hjJ | rfl
      · rcases hvals j hjJ with ⟨t', v', ht', hv', hm⟩
        refine ⟨t', v', ht', hv', ?_⟩
        unfold mset
        rw [if_neg (by
          intro hq
          injection hq with _ h2
          have : j = J := by exact_mod_cast h2
          omega)]
        exact hm
      · refine ⟨t, v, ht, hv, ?_⟩
        unfold mset
        rw [if_pos rfl]

theorem derive_edge_cost_spec {g : CostGraph} {s cnode : Node} {mm : List ℤ}
    {old : Mat} {m' : Mat} (h : derive_edge_cost g s cnode mm old = some m') :
    ∀ i j : ℕ, i < g.node_lens s → j < g.node_lens cnode →
      ∃ t v, mm.get? i = some t ∧ old (t, (j : ℤ)) = some v ∧
        m' ((i : ℤ), (j : ℤ)) = some v := by
  unfold derive_edge_cost at h
  suffices haux : ∀ (I : ℕ) (mr : Mat),
      (List.range I).foldlM (fun m i =>
        (List.range (g.node_lens cnode)).foldlM (fun m2 j => do
          let dst_strate_index ← mm.get? i
          let c ← old (dst_strate_index, (j : ℤ))
          pure (mset m2 ((i : ℤ), (j : ℤ)) c)) m) (fun _ => none) = some mr →
      ∀ i j : ℕ, i < I → j < g.node_lens cnode →
        ∃ t v, mm.get? i = some t ∧ old (t, (j : ℤ)) = some v ∧
          mr ((i : ℤ), (j : ℤ)) = some v by
    intro i j hi hj
    exact haux (g.node_lens s) m' h i j hi hj
  intro I
  induction I with
  | zero =>
    intro mr h' i j hi _
    exact absurd hi (Nat.not_lt_zero i)
  | succ I ih =>
    intro mr h' i j hi hj
    rw [List.range_succ, List.foldlM_append] at h'
    rcases Option.bind_eq_some.mp h' with ⟨m1, hm1, h'⟩
    rw [List.foldlM_cons] at h'
    rcases Option.bind_eq_some.mp h' with ⟨m2, hrow, h'⟩
    rw [List.foldlM_nil] at h'
    have hq2 : m2 = mr := Option.some_inj.mp h'
    subst hq2
    rcases derive_row_spec mm old I (g.node_lens cnode) m1 m2 hrow with
      ⟨hpres, hvals⟩
    rcases Nat.lt_succ_iff_lt_or_eq.mp hi with hiI | rfl
    · rcases ih m1 hm1 i j hiI hj with ⟨t, v, ht, hv, hm⟩
      refine ⟨t, v, ht, hv, ?_⟩
      have hiI' : (i : ℤ) ≠ (I : ℤ) := by
        intro hq
        have h2 : i = I := by exact_mod_cast hq
        omega
      rw [hpres _ _ hiI']
      exact hm
    · exact hvals j hj

theorem dget_append_left {α β : Type} [DecidableEq α] {l1 : List (α × β)}
    (l2 : List (α × β)) {a : α} {b : β} (h : dget l1 a = some b) :
    dget (l1 ++ l2) a = some b := by
  rw [dget_append, h]

theorem dget_append_right {α β : Type} [DecidableEq α] {l1 : List (α × β)}
    (l2 : List (α × β)) {a : α} (h : dget l1 a = none) :
    dget (l1 ++ l2) a = dget l2 a := by
  rw [dget_append, h]

theorem dmem_false_of_keys {α β : Type} [DecidableEq α] (l : List (α × β)) (k : α)
    (h : ∀ q ∈ l, q.1 ≠ k) : dmem l k = false := by
  have hnone : dget l k = none := by
    apply dget_eq_none_of_not_key
    intro hk
    rcases List.mem_map.mp hk with ⟨q, hq, hq1⟩
    exact h q hq hq1
  rw [dmem, hnone]
  rfl

/-- The derivation loop appends, for each child in order, a fresh
`(src, child)` entry whose selected cost equals the old `(dst, child)`
selected cost, provided the assignment is merge-map consistent. -/
theorem derive_fold_sum (g : CostGraph) (s d : Node) (mm : List ℤ)
    (f : Node → ℕ) (hsd : s ≠ d)
    (hfd : mm.get? (f s) = some ((f d : ℕ) : ℤ)) (hfs : f s < g.node_lens s) :
    ∀ (cs : List Node) (news0 ec' : List ((Node × Node) × Mat)),
      cs.foldlM (derive_step g s d mm) (g.edge_costs ++ news0) = some ec' →
      cs.Nodup →
      (∀ c ∈ cs, f c < g.node_lens c) →
      (∀ c ∈ cs, dmem g.edge_costs (s, c) = false) →
      (∀ c ∈ cs, ∀ q ∈ news0, q.1 ≠ (s, c)) →
      (∀ q ∈ news0, q.1.1 = s) →
      ∃ news, ec' = g.edge_costs ++ news0 ++ news ∧
        (∀ q ∈ news, q.1.1 = s ∧ q.1.2 ∈ cs) ∧
        (∀ c ∈ cs, ∃ old, dget g.edge_costs (d, c) = some old) ∧
        edge_total news f = (cs.map (fun c => sel f g.edge_costs d c)).sum := by
  intro cs
  induction cs with
  | nil =>
    intro news0 ec' h _ _ _ _ _
    rw [List.foldlM_nil] at h
    cases Option.some_inj.mp h
    refine ⟨[], by simp, by simp, by simp, ?_⟩
    unfold edge_total
    simp
  | cons c rest ih =>
    intro news0 ec' h hnd hfc hfresh hfresh0 hkeys0
    rw [List.foldlM_cons] at h
    rcases Option.bind_eq_some.mp h with ⟨ec1, hstep, hrest⟩
    have hcd : dmem (g.edge_costs ++ news0) (s, c) = false := by
      rw [dmem_append, hfresh c (List.mem_cons_self _ _),
        dmem_false_of_keys news0 (s, c)
          (fun q hq => hfresh0 c (List.mem_cons_self _ _) q hq)]
      rfl
    rcases derive_step_cases hstep with ⟨hmem, _⟩ | ⟨_, old, em, hold, hem, rfl⟩
    · rw [hcd] at hmem
      exact Bool.noConfusion hmem
    have hold_g : dget g.edge_costs (d, c) = some old := by
      cases hq : dget g.edge_costs (d, c) with
      | none =>
        have hn0 : dget news0 (d, c) = none := by
          apply dget_eq_none_of_not_key
          intro hk
          rcases List.mem_map.mp hk with ⟨q, hq2, hq3⟩
          exact hsd (by
            have hqs := hkeys0 q hq2
            rw [hq3] at hqs
            exact hqs.symm)
        rw [dget_append_right news0 hq, hn0] at hold
        exact Option.noConfusion hold
      | some old2 =>
        rw [dget_append_left news0 hq] at hold
        exact congrArg some (Option.some_inj.mp hold)
    have hec1 : dset (g.edge_costs ++ news0) (s, c) em
        = g.edge_costs ++ (news0 ++ [((s, c), em)]) := by
      rw [dset_fresh _ _ _ hcd, List.append_assoc]
    rw [hec1] at hrest
    have hfresh' : ∀ c' ∈ rest, ∀ q ∈ news0 ++ [((s, c), em)], q.1 ≠ (s, c') := by
      intro c' hc' q hq
      rcases List.mem_append.mp hq with hq2 | hq2
      · exact hfresh0 c' (List.mem_cons_of_mem _ hc') q hq2
      · rcases List.mem_singleton.mp hq2 with rfl
        intro hcc
        injection hcc with _ h2
        exact (List.nodup_cons.mp hnd).1 (h2 ▸ hc')
    have hkeys0' : ∀ q ∈ news0 ++ [((s, c), em)], q.1.1 = s := by
      intro q hq
      rcases List.mem_append.mp hq with hq2 | hq2
      · exact hkeys0 q hq2
      · rcases List.mem_singleton.mp hq2 with rfl
        rfl
    rcases ih (news0 ++ [((s, c), em)]) ec' hrest (List.nodup_cons.mp hnd).2
      (fun c' hc' => hfc c' (List.mem_cons_of_mem _ hc'))
      (fun c' hc' => hfresh c' (List.mem_cons_of_mem _ hc'))
      hfresh' hkeys0' with ⟨news, hec', hnews, holds, hsum⟩
    refine ⟨((s, c), em) :: news, ?_, ?_, ?_, ?_⟩
    · rw [hec']
      simp
    · intro q hq
      cases hq with
      | head => exact ⟨rfl, List.mem_cons_self _ _⟩
      | tail _ hq2 =>
        rcases hnews q hq2 with ⟨h1, h2⟩
        exact ⟨h1, List.mem_cons_of_mem _ h2⟩
    · intro c' hc'
      cases hc' with
      | head => exact ⟨old, hold_g⟩
      | tail _ hc2 => exact holds c' hc2
    · have hemv : ∃ v, old ((f d : ℤ), (f c : ℤ)) = some v ∧
          em ((f s : ℤ), (f c : ℤ)) = some v := by
        rcases derive_edge_cost_spec hem (f s) (f c) hfs
          (hfc c (List.mem_cons_self _ _)) with ⟨t, v, ht, hv, hm⟩
        have hteq : t = ((f d : ℕ) : ℤ) := Option.some_inj.mp (ht.symm.trans hfd)
        subst hteq
        exact ⟨v, hv, hm⟩
      rcases hemv with ⟨v, hvold, hvem⟩
      unfold edge_total at hsum ⊢
      rw [List.map_cons, List.sum_cons, List.map_cons, List.sum_cons, hsum]
      congr 1
      show (em ((f s : ℤ), (f c : ℤ))).getD 0 = sel f g.edge_costs d c
      rw [hvem]
      unfold sel
      rw [hold_g]
      show v = (old ((f d : ℤ), (f c : ℤ))).getD 0
      rw [hvold]
      rfl

theorem rewire_loop_pop_list {s d : Node} :
    ∀ (cs : List Node)
      (st0 st' : (Node → List Node) × (Node → List Node) × List ((Node × Node) × Mat)),
      cs.foldlM (rewire_child_step s d) st0 = some st' →
      cs.Nodup → d ∉ cs → (st0.2.1 d).length = 0 →
      st'.2.2 = st0.2.2.filter (fun p => ¬ p.1 ∈ cs.map (fun c => (d, c))) := by
  intro cs
  induction cs with
  | nil =>
    intro st0 st' h _ _ _
    rw [List.foldlM_nil] at h
    cases Option.some_inj.mp h
    rw [List.filter_eq_self.mpr]
    intro p _
    simp
  | cons c rest ih =>
    intro st0 st' h hnd hdcs hzero
    rw [List.foldlM_cons] at h
    rcases Option.bind_eq_some.mp h with ⟨st1, hstep, hrest⟩
    have hcd : c ≠ d := fun hq => hdcs (hq ▸ List.mem_cons_self _ _)
    rcases rewire_step_cases hstep with ⟨ch1, pa1, hch1, hpa1, hcase⟩
    have hpa1d : pa1 d = st0.2.1 d := by
      rw [hpa1]
      by_cases hs : s ∈ st0.2.1 c
      · rw [if_pos hs]
      · rw [if_neg hs]
        unfold fupd
        rw [if_neg (Ne.symm hcd)]
    rcases hcase with ⟨_, cp, ecs2, hcp, hecs2, rfl⟩ | ⟨hlen, _⟩
    · have hst1d : (ch1, fupd pa1 c cp, ecs2).2.1 d = st0.2.1 d := by
        dsimp only
        unfold fupd
        rw [if_neg (Ne.symm hcd)]
        exact hpa1d
      have hec : ecs2 = st0.2.2.filter (fun p => ¬ p.1 = (d, c)) :=
        (dpop_eq_some hecs2).1
      rw [ih _ _ hrest (List.nodup_cons.mp hnd).2
        (fun hq => hdcs (List.mem_cons_of_mem _ hq)) (by rw [hst1d]; exact hzero)]
      dsimp only
      rw [hec, List.filter_filter]
      apply List.filter_congr
      intro p _
      by_cases h1 : p.1 = (d, c) <;> by_cases h2 : p.1 ∈ rest.map (fun c => (d, c)) <;>
        simp [h1, h2]
    · exact absurd (by rw [hpa1d]; exact hzero) hlen

theorem sum_filter_removed {α β : Type} [DecidableEq α] (F : α × β → Cost) :
    ∀ (ks : List α) (l : List (α × β)), (l.map Prod.fst).Nodup → ks.Nodup →
      (∀ k ∈ ks, (dget l k).isSome = true) →
      (l.map F).sum = ((l.filter (fun p => ¬ p.1 ∈ ks)).map F).sum
        + (ks.map (fun k => ((dget l k).elim 0 (fun m => F (k, m))))).sum := by
  intro ks
  induction ks with
  | nil =>
    intro l _ _ _
    rw [List.filter_eq_self.mpr (fun p _ => by simp)]
    simp
  | cons k ks' ih =>
    intro l hnd hknd hpres
    cases hm : dget l k with
    | none =>
      have := hpres k (List.mem_cons_self _ _)
      rw [hm] at this
      exact Bool.noConfusion this
    | some m =>
      have hsplit := sum_dget_split F l k m hnd hm
      have hnd' : ((l.filter (fun p => ¬ p.1 = k)).map Prod.fst).Nodup :=
        List.Nodup.sublist (List.Sublist.map _ (List.filter_sublist l)) hnd
      have hpres' : ∀ k' ∈ ks', (dget (l.filter (fun p => ¬ p.1 = k)) k').isSome = true := by
        intro k' hk'
        have hne : ¬ k' = k := fun hq => (List.nodup_cons.mp hknd).1 (hq ▸ hk')
        rw [dget_filter_out]
        rw [if_neg hne]
        exact hpres k' (List.mem_cons_of_mem _ hk')
      have hih := ih (l.filter (fun p => ¬ p.1 = k)) hnd' (List.nodup_cons.mp hknd).2 hpres'
      have hfcomp : (l.filter (fun p => ¬ p.1 = k)).filter (fun p => ¬ p.1 ∈ ks')
          = l.filter (fun p => ¬ p.1 ∈ k :: ks') := by
        rw [List.filter_filter]
        apply List.filter_congr
        intro p _
        by_cases h1 : p.1 = k <;> by_cases h2 : p.1 ∈ ks' <;>
          simp [h1, h2]
      have hvals : ks'.map (fun k' => ((dget (l.filter (fun p => ¬ p.1 = k)) k').elim 0
            (fun m2 => F (k', m2))))
          = ks'.map (fun k' => ((dget l k').elim 0 (fun m2 => F (k', m2)))) := by
        apply List.map_congr_left
        intro k' hk'
        have hne : ¬ k' = k := fun hq => (List.nodup_cons.mp hknd).1 (hq ▸ hk')
        rw [dget_filter_out, if_neg hne]
      rw [hsplit, hih, hfcomp, hvals, List.map_cons, List.sum_cons, hm]
      dsimp only [Option.elim]
      rw [add_assoc, add_comm (F (k, m)), ← add_assoc]

theorem extra_step_shape {g : CostGraph} {s d : Node} {mm : List ℤ}
    {ex1 ex : List (Node × List Cost)} {i : ℕ}
    (h : extra_step g s d mm ex1 i = some ex) :
    ∃ w, ex = dset ex1 s w ∨ ∃ w2, ex = dset (dset ex1 s w) s w2 := by
  unfold extra_step at h
  rcases Option.bind_eq_some.mp h with ⟨t, _, h⟩
  rcases Option.bind_eq_some.mp h with ⟨tgt, _, h⟩
  rcases Option.bind_eq_some.mp h with ⟨base, _, h⟩
  rcases Option.bind_eq_some.mp h with ⟨cur_list, _, h⟩
  rcases Option.bind_eq_some.mp h with ⟨cur, _, h⟩
  rcases Option.bind_eq_some.mp h with ⟨l1, _, h⟩
  dsimp only at h
  cases hq : dget (dset ex1 s l1) d with
  | none =>
    rw [hq] at h
    dsimp only at h
    exact ⟨l1, Or.inl (Option.some_inj.mp h).symm⟩
  | some dl =>
    rw [hq] at h
    dsimp only at h
    rcases Option.bind_eq_some.mp h with ⟨cl, _, h⟩
    rcases Option.bind_eq_some.mp h with ⟨cur2, _, h⟩
    rcases Option.bind_eq_some.mp h with ⟨ed, _, h⟩
    rcases Option.bind_eq_some.mp h with ⟨l2, _, h⟩
    exact ⟨l1, Or.inr ⟨l2, (Option.some_inj.mp h).symm⟩⟩

theorem extra_phase_list {g : CostGraph} {s d : Node} {mm : List ℤ}
    {ex : List (Node × List Cost)} (hsx : dmem g.extra_node_costs s = false)
    (h : extra_phase g s d mm = some ex) :
    ∃ el, ex = g.extra_node_costs ++ [(s, el)] := by
  unfold extra_phase at h
  refine foldlM_option_inv
    (P := fun ex' => ∃ el, ex' = g.extra_node_costs ++ [(s, el)]) _ _ _ h
    (fun i e1 e2 _ hstep hp => ?_) ⟨_, dset_fresh _ _ _ hsx⟩
  rcases hp with ⟨el1, rfl⟩
  rcases extra_step_shape hstep with ⟨w, hw | ⟨w2, hw2⟩⟩
  · exact ⟨w, by rw [hw, dset_append_overwrite _ _ _ _ hsx]⟩
  · refine ⟨w2, ?_⟩
    rw [hw2, dset_append_overwrite _ _ _ _ hsx, dset_append_overwrite _ _ _ _ hsx]

theorem live_extra_split (extra : List (Node × List Cost))
    (fol : List (Node × Node)) (f : Node → ℕ) (d s : Node) (el : List Cost)
    (hxnd : (extra.map Prod.fst).Nodup) (hdfol : dmem fol d = false)
    (hsfol : dmem fol s = false) (hsd : s ≠ d) :
    ∃ L0 : Cost,
      (((extra ++ [(s, el)]).filter (fun p => ! dmem (fol ++ [(d, s)]) p.1)).map
          (fun p => (p.2.get? (f p.1)).getD 0)).sum
        = L0 + (el.get? (f s)).getD 0
      ∧ ((extra.filter (fun p => ! dmem fol p.1)).map
          (fun p => (p.2.get? (f p.1)).getD 0)).sum
        = L0 + ((dget extra d).elim 0 (fun dl => ((dl.get? (f d)).getD 0))) := by
  have hmem' : ∀ x, dmem (fol ++ [(d, s)]) x = (dmem fol x || decide (d = x)) := by
    intro x
    rw [dmem_append]
    congr 1
    rw [dmem, dget]
    by_cases hq : d = x
    · rw [if_pos hq]
      simp [hq]
    · rw [if_neg hq]
      simp [hq, dget]
  rw [List.filter_append]
  have hsingle : [(s, el)].filter (fun p => ! dmem (fol ++ [(d, s)]) p.1) = [(s, el)] := by
    have hcond : dmem (fol ++ [(d, s)]) (s, el).1 = false := by
      dsimp only
      rw [hmem' s, hsfol, decide_eq_false (Ne.symm hsd)]
      rfl
    rw [List.filter_singleton, hcond]
    rfl
  have hfilt : extra.filter (fun p => ! dmem (fol ++ [(d, s)]) p.1)
      = (extra.filter (fun p => ! dmem fol p.1)).filter (fun p => ¬ p.1 = d) := by
    rw [List.filter_filter]
    apply List.filter_congr
    intro p _
    rw [hmem' p.1]
    by_cases h1 : p.1 = d
    · cases hb : dmem fol p.1 <;> simp [h1, hb]
    · have h1' : ¬ d = p.1 := fun hq => h1 hq.symm
      cases hb : dmem fol p.1 <;> simp [h1, h1', hb]
  refine ⟨(((extra.filter (fun p => ! dmem fol p.1)).filter
      (fun p => ¬ p.1 = d)).map (fun p => (p.2.get? (f p.1)).getD 0)).sum, ?_, ?_⟩
  · rw [hsingle, List.map_append, List.sum_append, hfilt,
      List.map_singleton, List.sum_singleton]
  · cases hdl : dget extra d with
    | none =>
      have hnoopf : (extra.filter (fun p => ! dmem fol p.1)).filter (fun p => ¬ p.1 = d)
          = extra.filter (fun p => ! dmem fol p.1) := by
        apply filter_key_noop
        intro p hp
        exact keys_ne_of_dmem_false extra d (by rw [dmem, hdl]; rfl) p
          (List.mem_of_mem_filter hp)
      rw [hnoopf]
      dsimp only [Option.elim]
      rw [add_zero]
    | some dl =>
      have hdl' : dget (extra.filter (fun p => ! dmem fol p.1)) d = some dl := by
        rw [dget_filter_keyfun (fun x => ! dmem fol x) extra d]
        rw [hdfol]
        exact hdl
      have hnd' : ((extra.filter (fun p => ! dmem fol p.1)).map Prod.fst).Nodup :=
        List.Nodup.sublist (List.Sublist.map _ (List.filter_sublist extra)) hxnd
      have hsplit := sum_dget_split (fun p => (p.2.get? (f p.1)).getD 0)
        (extra.filter (fun p => ! dmem fol p.1)) d dl hnd' hdl'
      rw [hsplit]
      dsimp only [Option.elim]

theorem sum_filter_removed_edges (F : (Node × Node) × Mat → Cost)
    (ks : List (Node × Node)) (l : List ((Node × Node) × Mat))
    (hnd : (l.map Prod.fst).Nodup) (hks : ks.Nodup)
    (hpres : ∀ k ∈ ks, (dget l k).isSome = true) :
    (l.map F).sum = ((l.filter (fun p => ¬ p.1 ∈ ks)).map F).sum
      + (ks.map (fun k => ((dget l k).elim 0 (fun m => F (k, m))))).sum := by
  rw [sum_filter_removed F ks l hnd hks hpres]
  congr 1
  congr 1
  congr 1
  apply List.filter_congr
  intro p _
  exact decide_eq_decide.mpr Iff.rfl

/-- C1 (amended): a single `merge_node(src, dst)` step preserves the
selected cost total.  Under the intended preconditions of a replayed merge
(`src` is the sole parent of `dst`, the tables have unique keys, the new
`(src, child)` pairs are fresh, `src` carries no prior extra cost, neither
node is already absorbed) and for every strategy assignment `f` that is
merge-map consistent (`f dst` is the merge-map image of `f src`) and for
which the `(src, dst)` matrix entry at `(f src, f dst)` equals the
corresponding resharding cost, the live edge-cost total plus the live
extra-node-cost total after the merge equals the one before it.  The
original full-simplification statement of the claim is refuted by
`claim_C1_counterexample`: on a diamond the shared-child derivation is
dropped, so only the per-step conservation law stated here survives. -/
theorem claim_C1 (g : CostGraph) (s d : Node) (g' : CostGraph) (f : Node → ℕ)
    (h : merge_node g s d = some g') (hsd : s ≠ d)
    (hpar : g.parents d = [s])
    (hnd : (g.children d).Nodup) (hdnc : d ∉ g.children d)
    (hend : (g.edge_costs.map Prod.fst).Nodup)
    (hxnd : (g.extra_node_costs.map Prod.fst).Nodup)
    (hfresh : ∀ c ∈ g.children d, dmem g.edge_costs (s, c) = false)
    (hsx : dmem g.extra_node_costs s = false)
    (hdfol : dmem g.following_dict d = false)
    (hsfol : dmem g.following_dict s = false)
    (mm : List ℤ) (hmm : build_merge_map g s d = some mm)
    (hfd : mm.get? (f s) = some ((f d : ℕ) : ℤ))
    (hfs : f s < g.node_lens s) (hfs2 : f s < (g.strategies s).length)
    (hfc : ∀ c ∈ g.children d, f c < g.node_lens c)
    (msd : Mat) (hmsd : dget g.edge_costs (s, d) = some msd)
    (hreg : ∀ stj base, (g.strategies d).get? (f d) = some stj →
        (stj.resharding_costs s).get? (f s) = some base →
        msd ((f s : ℤ), (f d : ℤ)) = some base) :
    edge_total g'.edge_costs f + live_extra_total g' f
      = edge_total g.edge_costs f + live_extra_total g f := by
  rcases merge_node_parts h with ⟨dp, mm', ex, ec1, hdp, hmm', hex, hec1, hrw⟩
  have hmmeq : mm = mm' := Option.some_inj.mp (hmm.symm.trans hmm')
  subst hmmeq
  rcases rewire_phase_parts hrw with
    ⟨dparents, schildren, ec2, st, hdp2, hsc, hec2, hst, hg'⟩
  have hdparents : dparents = [] := by
    rw [hpar] at hdp2
    simp [pyRemove] at hdp2
    exact hdp2
  subst hdparents
  have hcs : (fupd g.children s schildren) d = g.children d := by
    show (if d = s then schildren else g.children d) = g.children d
    rw [if_neg (fun hq : d = s => hsd hq.symm)]
  rw [hcs] at hst
  have hzero :
      ((fupd g.children s schildren, fupd g.parents d ([] : List Node),
        ec2).2.1 d).length = 0 := by
    show ((if d = d then ([] : List Node) else g.parents d)).length = 0
    rw [if_pos rfl]
    rfl
  unfold derive_phase at hec1
  have hec1' : (g.children d).foldlM (derive_step g s d mm)
      (g.edge_costs ++ []) = some ec1 := by
    rw [List.append_nil]
    exact hec1
  rcases derive_fold_sum g s d mm f hsd hfd hfs (g.children d) [] ec1 hec1' hnd hfc
      hfresh (fun c _ q hq => absurd hq (List.not_mem_nil q))
      (fun q hq => absurd hq (List.not_mem_nil q))
    with ⟨news, hec1eq, hnews, holds, hnewsum⟩
  rw [List.append_nil] at hec1eq
  have hec2f : ec2 = g.edge_costs.filter (fun p => ¬ p.1 = (s, d)) ++ news := by
    have hq := (dpop_eq_some hec2).1
    rw [hec1eq, List.filter_append] at hq
    rw [hq]
    congr 1
    apply filter_key_noop
    intro q hqn hq1
    have hq2 : q.1.2 = d := congrArg Prod.snd hq1
    exact hdnc (hq2 ▸ (hnews q hqn).2)
  have hpop : st.2.2 = ec2.filter
      (fun p => ¬ p.1 ∈ (g.children d).map (fun c => (d, c))) :=
    rewire_loop_pop_list (g.children d) _ st hst hnd hdnc hzero
  have hstec : st.2.2
      = (g.edge_costs.filter (fun p => ¬ p.1 = (s, d))).filter
          (fun p => ¬ p.1 ∈ (g.children d).map (fun c => (d, c)))
        ++ news := by
    rw [hpop, hec2f, List.filter_append]
    congr 1
    rw [List.filter_eq_self]
    intro q hq
    simp only [decide_eq_true_eq]
    intro hmem
    rcases List.mem_map.mp hmem with ⟨c, _, hc⟩
    exact hsd ((congrArg Prod.fst hc).trans (hnews q hq).1).symm
  have hstd : st.2.1 d = [] := by
    rw [rewire_loop_parents_d hdnc hst]
    show (if d = d then ([] : List Node) else g.parents d) = []
    rw [if_pos rfl]
  have hgec : g'.edge_costs = st.2.2 := by
    rw [hg', finalize_merge_edge_costs]
  have hgex : g'.extra_node_costs = ex := by
    rw [hg', finalize_merge_extra]
  have hgfol : g'.following_dict = g.following_dict ++ [(d, s)] := by
    rw [hg']
    unfold finalize_merge
    rw [if_pos (show (st.2.1 d).length = 0 by rw [hstd]; rfl)]
    exact dset_fresh g.following_dict d s hdfol
  rcases extra_phase_list hsx hex with ⟨el, hexeq⟩
  rcases (extra_phase_spec hsd hex).2 with ⟨el2, hel2, _, _, hval⟩
  have hel2' : dget ex s = some el := by
    rw [hexeq, dget_append_right _ (dget_of_dmem_false hsx)]
    rw [dget, if_pos rfl]
  have helq : el = el2 := Option.some_inj.mp (hel2'.symm.trans hel2)
  subst helq
  rcases hval (f s) hfs2 with ⟨t, tgt, base, ht, htgt, hbase, hcase⟩
  have hteq : t = ((f d : ℕ) : ℤ) := Option.some_inj.mp (ht.symm.trans hfd)
  subst hteq
  rw [pyGet_nonneg _ _ (Int.natCast_nonneg (f d)), Int.toNat_natCast] at htgt
  have hregval : msd ((f s : ℤ), (f d : ℤ)) = some base := hreg tgt base htgt hbase
  rcases live_extra_split g.extra_node_costs g.following_dict f d s el hxnd
      hdfol hsfol hsd with ⟨L0, hLnew, hLold⟩
  have hX' : live_extra_total g' f = L0 + (el.get? (f s)).getD 0 := by
    unfold live_extra_total
    rw [hgex, hexeq, hgfol]
    exact hLnew
  have hX : live_extra_total g f
      = L0 + ((dget g.extra_node_costs d).elim 0
          (fun dl => ((dl.get? (f d)).getD 0))) := hLold
  have ha := sum_dget_split
    (fun e => ((e.2 ((f e.1.1 : ℤ), (f e.1.2 : ℤ))).getD 0 : Cost))
    g.edge_costs (s, d) msd hend hmsd
  have hG1nd : ((g.edge_costs.filter (fun p => ¬ p.1 = (s, d))).map
      Prod.fst).Nodup :=
    List.Nodup.sublist (List.Sublist.map _ (List.filter_sublist _)) hend
  have hksnd : ((g.children d).map (fun c => (d, c))).Nodup :=
    List.Nodup.map (fun a b hab => congrArg Prod.snd hab) hnd
  have hpres : ∀ k ∈ (g.children d).map (fun c => (d, c)),
      (dget (g.edge_costs.filter (fun p => ¬ p.1 = (s, d))) k).isSome = true := by
    intro k hk
    rcases List.mem_map.mp hk with ⟨c, hc, rfl⟩
    rw [dget_filter_out,
      if_neg (fun hq : (d, c) = (s, d) => hsd (congrArg Prod.fst hq).symm)]
    rcases holds c hc with ⟨old, hold⟩
    rw [hold]
    rfl
  have hb := sum_filter_removed_edges
    (fun e => ((e.2 ((f e.1.1 : ℤ), (f e.1.2 : ℤ))).getD 0 : Cost))
    ((g.children d).map (fun c => (d, c)))
    (g.edge_costs.filter (fun p => ¬ p.1 = (s, d))) hG1nd hksnd hpres
  have hvals : (((g.children d).map (fun c => (d, c))).map
        (fun k => ((dget (g.edge_costs.filter (fun p => ¬ p.1 = (s, d))) k).elim 0
          (fun m => (m ((f k.1 : ℤ), (f k.2 : ℤ))).getD 0)))).sum
      = ((g.children d).map (fun c => sel f g.edge_costs d c)).sum := by
    rw [List.map_map]
    congr 1
    apply List.map_congr_left
    intro c hc
    show ((dget (g.edge_costs.filter (fun p => ¬ p.1 = (s, d))) (d, c)).elim 0
      (fun m => (m ((f d : ℤ), (f c : ℤ))).getD 0)) = sel f g.edge_costs d c
    rw [dget_filter_out,
      if_neg (fun hq : (d, c) = (s, d) => hsd (congrArg Prod.fst hq).symm)]
    rcases holds c hc with ⟨old, hold⟩
    rw [hold]
    unfold sel
    rw [hold]
    rfl
  have hE : edge_total g.edge_costs f
      = edge_total ((g.edge_costs.filter (fun p => ¬ p.1 = (s, d))).filter
            (fun p => ¬ p.1 ∈ (g.children d).map (fun c => (d, c)))) f
        + ((g.children d).map (fun c => sel f g.edge_costs d c)).sum + base := by
    unfold edge_total
    rw [ha]
    dsimp only
    rw [hregval, Option.getD_some, hb]
    dsimp only
    rw [hvals]
  have hE' : edge_total g'.edge_costs f
      = edge_total ((g.edge_costs.filter (fun p => ¬ p.1 = (s, d))).filter
            (fun p => ¬ p.1 ∈ (g.children d).map (fun c => (d, c)))) f
        + ((g.children d).map (fun c => sel f g.edge_costs d c)).sum := by
    rw [hgec, hstec, edge_total_append, hnewsum]
  rw [hE', hE, hX', hX]
  rcases hcase with ⟨hdgx, hv⟩ | ⟨dl, ed, hdgx, hed, hv⟩
  · rw [hdgx, hv]
    dsimp only [Option.elim, Option.getD]
    rw [zero_add, add_zero]
    abel
  · rw [pyGet_nonneg _ _ (Int.natCast_nonneg (f d)), Int.toNat_natCast] at hed
    rw [hdgx, hv]
    dsimp only [Option.elim]
    rw [hed]
    dsimp only [Option.getD]
    rw [zero_add]
    abel

/-- C1 counterexample (to the literal full-simplification claim): on the
diamond graph `0 → 1`, `0 → 2`, `1 → 2` with one strategy per node, the
only full assignment picks index `0` everywhere and is merge-map
consistent (the single replayed merge of `1` into `0` has merge map
`[0]`); yet after `simplify_graph` the live-edge total plus the extra
cost charged for the absorbed node `1` is `12`, while the original edge
total is `13`: the derivation for the shared child `2` is dropped by the
`continue` at line 109 of the source, losing the cost `1` of edge
`(1, 2)`. -/
theorem claim_C1_counterexample :
    simplify_graph diamondG0 = some diamondG1 ∧
    build_merge_map diamondG0 0 1 = some [0] ∧
    dget diamondG1.following_dict 1 = some 0 ∧
    edge_total diamondG0.edge_costs (fun _ => 0)
        + live_extra_total diamondG0 (fun _ => 0) = qc 13 ∧
    edge_total diamondG1.edge_costs (fun _ => 0)
        + live_extra_total diamondG1 (fun _ => 0) = qc 12 :=
  ⟨(Option.some_get (by decide)).symm, by decide, by decide, by decide, by decide⟩

/-- Witness for C1 on the chain: merging node `2` into node `1` preserves
the total selected by the merge-map-consistent assignment `chainF`
(`4 + 1 = 5 + 0`). -/
theorem claim_C1_witness :
    merge_node chainG0 1 2 = some chainM1 ∧
    edge_total chainM1.edge_costs chainF + live_extra_total chainM1 chainF
      = edge_total chainG0.edge_costs chainF + live_extra_total chainG0 chainF := by
  refine ⟨(Option.some_get (by decide)).symm, ?_⟩
  exact claim_C1 chainG0 1 2 chainM1 chainF (Option.some_get (by decide)).symm
    (by decide) (by decide) (by decide) (by decide) (by decide) (by decide)
    (by decide) (by decide) (by decide) (by decide)
    chainBM (Option.some_get (by decide)).symm (by decide) (by decide)
    (by decide) (by decide) chainMSD (Option.some_get (by decide)).symm
    (by
      intro stj base hstj hbase
      have hst2 : (chainG0.strategies 2).get? (chainF 2) = some chainST2 :=
        (Option.some_get (by decide)).symm
      have hq : stj = chainST2 := (Option.some_inj.mp (hst2.symm.trans hstj)).symm
      subst hq
      have hbv : (chainST2.resharding_costs 1).get? (chainF 1) = some (qc 1) := by
        decide
      have hbq : base = qc 1 := Option.some_inj.mp (hbase.symm.trans hbv)
      subst hbq
      decide)
